import Mathlib

/-!
Verification of the candidate-field extraction pipeline of the Email_process
repository (src/services/resumeParser.js, src/utils/textExtractor.js and the
AIEnhancedTextExtractor variant concatenated into src/index.js).

The JavaScript sources are shallowly embedded: strings are `String`/`List Char`,
JS numbers are exact rationals `ℚ` (the values involved are small decimal
literals, far from any floating-point boundary), `null`/`undefined` are
`Option`, and a thrown JS exception is `Except.error`.  Results of remote
model calls and of whole-text multiline regex matches are passed in as
explicit parameters, so every theorem quantifies over all values those
calls could produce.
-/

namespace EmailProcess

open List

/-! ### JS character primitives -/

/-- The ECMAScript `\s` character class (whitespace), as used by `trim`,
`split(/\s+/)` and `replace(/\s+/g, ' ')` in the sources. -/
def jsWs (c : Char) : Bool :=
  let n := c.toNat
  n == 0x20 || n == 0x09 || n == 0x0A || n == 0x0D || n == 0x0B || n == 0x0C ||
  n == 0xA0 || n == 0x1680 || (0x2000 ≤ n && n ≤ 0x200A) ||
  n == 0x2028 || n == 0x2029 || n == 0x202F || n == 0x205F ||
  n == 0x3000 || n == 0xFEFF

def isUpperAZ (c : Char) : Bool := 'A' ≤ c && c ≤ 'Z'

def isLowerAZ (c : Char) : Bool := 'a' ≤ c && c ≤ 'z'

def isDigit09 (c : Char) : Bool := '0' ≤ c && c ≤ '9'

def isAlphaAZ (c : Char) : Bool := isUpperAZ c || isLowerAZ c

def isAlnum (c : Char) : Bool := isAlphaAZ c || isDigit09 c

/-- The ECMAScript `\w` character class. -/
def isWordChar (c : Char) : Bool := isAlnum c || c == '_'

/-- ASCII lowercasing; the sources apply `toLowerCase` only for comparisons
against ASCII keywords, where it agrees with full Unicode lowercasing. -/
def asciiLower (c : Char) : Char :=
  if isUpperAZ c then Char.ofNat (c.toNat + 32) else c

/-- ASCII uppercasing, for `toUpperCase` in `formatName`. -/
def asciiUpper (c : Char) : Char :=
  if isLowerAZ c then Char.ofNat (c.toNat - 32) else c

def lowerList (l : List Char) : List Char := l.map asciiLower

/-- Case-insensitive character comparison (the `i` regex flag). -/
def ciChar (a b : Char) : Bool := asciiLower a == asciiLower b

/-! ### Text normalizer (`normalizeText`, src/services/resumeParser.js 184-195)

```js
const lines = text
    .replace(/\r\n/g, '\n')
    .replace(/\r/g, '\n')
    .split('\n')
    .map(line => line.replace(/\s+/g, ' ').trim())
    .filter(line => line.length > 0);
return lines.join('\n');
```
-/

/-- `text.replace(/\r\n/g, '\n')`. -/
def replaceCrLf : List Char → List Char
  | [] => []
  | '\r' :: '\n' :: rest => '\n' :: replaceCrLf rest
  | c :: rest => c :: replaceCrLf rest

/-- `text.replace(/\r/g, '\n')`. -/
def replaceCr (l : List Char) : List Char :=
  l.map fun c => if c = '\r' then '\n' else c

/-- `text.split('\n')`; like JS `split`, the empty string yields `[[]]`
and a trailing separator yields a trailing empty piece. -/
def splitNl : List Char → List (List Char)
  | [] => [[]]
  | c :: rest =>
    if c = '\n' then [] :: splitNl rest
    else (c :: (splitNl rest).headD []) :: (splitNl rest).tail

/-- `line.replace(/\s+/g, ' ')`: each maximal whitespace run becomes one
space.  The flag records whether the previous character was part of a run. -/
def collapseWsAux : Bool → List Char → List Char
  | _, [] => []
  | prevWs, c :: rest =>
    if jsWs c then
      if prevWs then collapseWsAux true rest
      else ' ' :: collapseWsAux true rest
    else c :: collapseWsAux false rest

def collapseWs (l : List Char) : List Char := collapseWsAux false l

/-- JS `String.prototype.trim`. -/
def jsTrim (l : List Char) : List Char :=
  ((l.dropWhile jsWs).reverse.dropWhile jsWs).reverse

def cleanLine (l : List Char) : List Char := jsTrim (collapseWs l)

/-- The processed line list of `normalizeText` before joining. -/
def normLines (t : String) : List (List Char) :=
  (((splitNl (replaceCr (replaceCrLf t.data))).map cleanLine).filter
    fun l => !l.isEmpty)

/-- `lines.join('\n')`. -/
def joinNl : List (List Char) → List Char
  | [] => []
  | [l] => l
  | l :: ls => l ++ '\n' :: joinNl ls

def normalizeText (t : String) : String := ⟨joinNl (normLines t)⟩

/-! ### Numeric parsing (`parseFloat` after `replace(/[^\d.]/g, '')`)

`isValidExperience` (src/services/resumeParser.js 168-172) evaluates
`parseFloat(experience.replace(/[^\d.]/g, ''))`.  After the strip the string
holds only digits and dots, so `parseFloat` reads an optional integer part,
an optional dot and a fractional part, and is `NaN` exactly when no digit
was read before the parse stops. -/

def stripToDigitsDots (s : String) : List Char :=
  s.data.filter fun c => isDigit09 c || c == '.'

def digitsValNat (l : List Char) : ℕ :=
  l.foldl (fun acc c => acc * 10 + (c.toNat - '0'.toNat)) 0

/-- `parseFloat` on a digits-and-dots-only string; `none` models `NaN`. -/
def parseDecimal (l : List Char) : Option ℚ :=
  let intPart := l.takeWhile isDigit09
  let rest := l.drop intPart.length
  match rest with
  | '.' :: rest2 =>
    let fracPart := rest2.takeWhile isDigit09
    if intPart.isEmpty && fracPart.isEmpty then none
    else some ((digitsValNat intPart : ℚ)
      + (digitsValNat fracPart : ℚ) / (10 : ℚ) ^ fracPart.length)
  | _ => if intPart.isEmpty then none else some (digitsValNat intPart : ℚ)

def jsParseFloatStripped (s : String) : Option ℚ :=
  parseDecimal (stripToDigitsDots s)

/-! ### Experience field -/

/-- An experience field value: the sentinel `"Not specified"`, a rule-based
value `"<q> years"` (with `q` the exact rational value of the JS number), or
a raw string coming from the model-assisted extractor. -/
inductive ExperienceVal where
  | notSpecified : ExperienceVal
  | years : ℚ → ExperienceVal
  | str : String → ExperienceVal
deriving DecidableEq

/-- The numeric value `parseFloat(v.replace(/[^\d.]/g, ''))` of an
experience field.  For `.years q` the JS string is `"<q> years"` where the
printed `q` is a nonnegative decimal literal (either a `\d+(\.\d+)?` capture
or a one-decimal rounded total), so the strip keeps exactly that decimal
literal and the parse returns `q`; for the sentinel `"Not specified"` the
strip yields `""` and `parseFloat` is `NaN`. -/
def expParseNum : ExperienceVal → Option ℚ
  | .notSpecified => none
  | .years q => some q
  | .str s => jsParseFloatStripped s

/-- `isValidExperience` (src/services/resumeParser.js 168-172) applied to a
model-provided experience string (`none` = JS `null`/`undefined`; the empty
string is falsy and rejected by `if (!experience)`). -/
def isValidExperience : Option String → Bool
  | none => false
  | some s =>
    if s = "" then false
    else
      match jsParseFloatStripped s with
      | none => false
      | some years => 0 ≤ years && years < 50

/-! ### Experience extraction (`extractExperienceEnhanced`, resumeParser 350-429)

Strategy 1 scans six `\d+(\.\d+)?`-capturing patterns over the text and
returns the first captured value `y` with `0 < y < 50` as `"<y> years"`.
Strategy 2 collects date-range matches, sums the plausible spans (adding
`currentMonth / 12` for spans ending in the current year) and returns the
total rounded to one decimal when it lies in `(0, 50)`.  The regex scans are
abstracted as explicit inputs: `directMatches` is the list of Strategy-1
capture values in match order and `spans` the list of Strategy-2 date
ranges, so the theorems below hold for every possible match result. -/

inductive SpanEnd where
  | year : Int → SpanEnd
  | present : SpanEnd
deriving DecidableEq

structure DateSpan where
  startYear : Int
  endOn : SpanEnd
deriving DecidableEq

/-- The contribution of one date-range match (resumeParser 395-420).  The
JS truthiness checks `startYear && endYear` are modelled as `≠ 0`: the years
are `parseInt` of `\d{4}` matches, hence never `NaN`. -/
def spanYears (currentYear currentMonth : Int) (sp : DateSpan) : ℚ :=
  let endYear : Int := match sp.endOn with | .year y => y | .present => currentYear
  if sp.startYear ≠ 0 ∧ endYear ≠ 0 ∧ sp.startYear ≤ endYear ∧ 1990 < sp.startYear then
    ((endYear - sp.startYear : Int) : ℚ)
      + (if endYear = currentYear then (currentMonth : ℚ) / 12 else 0)
  else 0

/-- `Math.round` (the arguments here are nonnegative, where JS rounds half
up). -/
def jsRound (q : ℚ) : ℤ := ⌊q + 1 / 2⌋

def extractExperienceEnhanced (directMatches : List ℚ) (spans : List DateSpan)
    (currentYear currentMonth : Int) : ExperienceVal :=
  match directMatches.find? (fun y => 0 < y && y < 50) with
  | some y => .years y
  | none =>
    let totalExperience := (spans.map (spanYears currentYear currentMonth)).sum
    if 0 < totalExperience ∧ totalExperience < 50 then
      .years ((jsRound (totalExperience * 10) : ℚ) / 10)
    else .notSpecified

/-! ### Validity predicates and skill merging (resumeParser 159-182) -/

/-- Decides whether `sub` is a prefix of `s`. -/
def isPrefixChars : List Char → List Char → Bool
  | [], _ => true
  | _ :: _, [] => false
  | a :: as, b :: bs => a == b && isPrefixChars as bs

/-- Decides whether `sub` occurs contiguously inside `s`
(JS `String.prototype.includes`). -/
def containsSeq (sub : List Char) : List Char → Bool
  | [] => sub.isEmpty
  | c :: rest => isPrefixChars sub (c :: rest) || containsSeq sub rest

def jsIncludes (s sub : String) : Bool := containsSeq sub.data s.data

/-- `isValidEmail`: `email && /^[^\s@]+@[^\s@]+\.[^\s@]+$/.test(email)`.
The whole string must be `pre@post` with `pre` nonempty and free of
whitespace and `@`, and `post` likewise and containing a dot that is
neither its first nor its last character. -/
def emailShape (l : List Char) : Bool :=
  match l.span (fun c => !(c == '@')) with
  | (pre, '@' :: post) =>
    !pre.isEmpty && pre.all (fun c => !jsWs c) &&
    post.all (fun c => !jsWs c && !(c == '@')) &&
    (post.drop 1).dropLast.contains '.'
  | _ => false

def isValidEmail : Option String → Bool
  | none => false
  | some s => if s = "" then false else emailShape s.data

/-- `isValidPhone`: `phone && /^[\d\+\-\(\)\s]{10,20}$/.test(phone)`. -/
def isValidPhone : Option String → Bool
  | none => false
  | some s =>
    if s = "" then false
    else
      (10 ≤ s.data.length && s.data.length ≤ 20) &&
      s.data.all fun c =>
        isDigit09 c || c == '+' || c == '-' || c == '(' || c == ')' || jsWs c

/-- `isValidLinkedIn`: `url && url.toLowerCase().includes('linkedin.com/in/')`. -/
def isValidLinkedIn : Option String → Bool
  | none => false
  | some u =>
    if u = "" then false
    else jsIncludes ⟨lowerList u.data⟩ "linkedin.com/in/"

/-- `new Set([...aiSkills, ...ruleBasedSkills])` keeps the first occurrence
of each element in insertion order. -/
def dedupAux : List String → List String → List String
  | _, [] => []
  | seen, x :: xs =>
    if seen.contains x then dedupAux seen xs
    else x :: dedupAux (x :: seen) xs

def jsSetDedup (l : List String) : List String := dedupAux [] l

/-- `mergeAndDedupSkills` (resumeParser 178-182). -/
def mergeAndDedupSkills (aiSkills ruleBasedSkills : List String)
    (limit : ℕ) : List String :=
  (jsSetDedup (aiSkills ++ ruleBasedSkills)).take limit

/-! ### Records and the merge policy (resumeParser 97-157)

The `async` model-assisted skill extractors are modelled by their resolved
values; a record field that JS would hold as `null` is `none`. -/

/-- The normalized record returned by
`aiResumeExtractor.parseAIResponse` (src/services/aiResumeExtractor.js
172-181). -/
structure AIRecord where
  name : Option String
  email : Option String
  phone : Option String
  experience : Option String
  linkedinUrl : Option String
  primarySkills : List String
  secondarySkills : List String
deriving DecidableEq

/-- The candidate record assembled by `extractCandidateInfoWithAI`
(the seven fields built at resumeParser 102-110 and 122-140). -/
structure CandidateRecord where
  name : String
  email : Option String
  phone : Option String
  experience : ExperienceVal
  linkedinUrl : Option String
  primarySkills : List String
  secondarySkills : List String
deriving DecidableEq

/-- JS `aiResult.name || ruleBasedInfo.name` (empty string is falsy). -/
def jsOrName : Option String → String → String
  | none, fallback => fallback
  | some s, fallback => if s = "" then fallback else s

/-- The experience field of the merged record:
`isValidExperience(aiResult.experience) ? aiResult.experience :
ruleBasedInfo.experience` (resumeParser 132). -/
def mergedExperience : Option String → ExperienceVal → ExperienceVal
  | some s, ruleExp => if isValidExperience (some s) then .str s else ruleExp
  | none, ruleExp => ruleExp

/-- The per-field merge of rule-based and model-assisted records
(resumeParser 122-140). -/
def mergeRecords (rb : CandidateRecord) (ai : AIRecord) : CandidateRecord where
  name := jsOrName ai.name rb.name
  email := if isValidEmail rb.email then rb.email else ai.email
  phone := if isValidPhone rb.phone then rb.phone else ai.phone
  experience := mergedExperience ai.experience rb.experience
  linkedinUrl := if isValidLinkedIn rb.linkedinUrl then rb.linkedinUrl else ai.linkedinUrl
  primarySkills := mergeAndDedupSkills ai.primarySkills rb.primarySkills 8
  secondarySkills := mergeAndDedupSkills ai.secondarySkills rb.secondarySkills 8

/-- `extractCandidateInfoWithAI` (resumeParser 97-157) given the rule-based
record already built at lines 102-110 and the outcome of the model call:
`.error` models a thrown error (network, API, rate limit, or the
`JSON.parse`/merge errors caught by the same `try`), `.ok none` models
`parseAIResponse` returning `null` on malformed JSON, and `.ok (some r)`
a parsed model record. -/
def extractCandidateInfoWithAI (ruleBasedInfo : CandidateRecord)
    (aiOutcome : Except Unit (Option AIRecord)) : CandidateRecord :=
  match aiOutcome with
  | .error _ => ruleBasedInfo
  | .ok none => ruleBasedInfo
  | .ok (some aiResult) => mergeRecords ruleBasedInfo aiResult

/-! ### Model-assisted skill lists (resumeParser 485-576)

`extractPrimarySkills`/`extractSecondarySkills` send a prompt to the model
and run `JSON.parse` on the reply.  The reply is modelled by its parsed
value: `none` stands for a thrown `quickAnalyze` error, a `JSON.parse`
error, or a non-array result (each of which makes the `catch`/guard return
`[]`); `some skills` for a parsed array, which is capped by
`skills.slice(0, 8)` — with no deduplication. -/

def extractPrimarySkills : Option (List String) → List String
  | none => []
  | some skills => skills.take 8

def extractSecondarySkills : Option (List String) → List String
  | none => []
  | some skills => skills.take 8

/-! ### Rule helpers for email and phone (resumeParser 431-462)

The regex scans are abstracted as the `Option String` first-match input;
the post-processing (`toLowerCase`, `cleanPhone`) is concrete. -/

def extractEmail (firstMatch : Option String) : Option String :=
  firstMatch.map fun s => ⟨lowerList s.data⟩

/-- `cleanPhone`: `phone.replace(/[^\d\+\-\(\)\s]/gi, '').trim()`. -/
def cleanPhone (s : String) : String :=
  ⟨jsTrim (s.data.filter fun c =>
    isDigit09 c || c == '+' || c == '-' || c == '(' || c == ')' || jsWs c)⟩

def extractPhone (firstMatch : Option String) : Option String :=
  firstMatch.map cleanPhone

/-! ### The index.js vocabulary skill extractor (index.js 405-432)

`extractSkillsWithAI` in the `AIEnhancedTextExtractor` variant of
src/index.js scans fixed category vocabularies, collects per-skill match
contexts into an insertion-ordered `Map` keyed by skill, scores them, sorts
by score descending (V8 sort is stable) and caps at 8 primary / 6 secondary
skills.  The context finder is abstracted as `ctxOf` (the function
`skill => findSkillContexts(textLower, skill)` for the fixed lowercased
text), so the theorems hold for every text. -/

def skillCategoriesIdx (cat : String) : List String :=
  if cat = "programming" then
    ["JavaScript", "Python", "Java", "C++", "C#", "PHP", "Ruby", "Go", "Rust",
     "TypeScript", "Swift", "Kotlin", "Scala", "R", "MATLAB", "Dart"]
  else if cat = "web" then
    ["React", "Angular", "Vue.js", "Vue", "Node.js", "Express", "Django",
     "Flask", "Spring", "ASP.NET", "Laravel", "HTML", "CSS", "Bootstrap",
     "Tailwind", "jQuery"]
  else if cat = "mobile" then
    ["React Native", "Flutter", "Xamarin", "iOS", "Android"]
  else if cat = "database" then
    ["MySQL", "PostgreSQL", "MongoDB", "Redis", "Cassandra", "Oracle",
     "SQL Server", "SQLite"]
  else if cat = "cloud" then
    ["AWS", "Azure", "GCP", "Heroku", "DigitalOcean"]
  else if cat = "devops" then
    ["Docker", "Kubernetes", "Jenkins", "Terraform", "Ansible"]
  else if cat = "tools" then
    ["Git", "GitHub", "JIRA", "Slack", "Postman", "Trello"]
  else []

def idxSelectedCats (isPrimary : Bool) : List String :=
  if isPrimary then ["programming", "web", "mobile", "database", "cloud"]
  else ["devops", "tools"]

/-- JS `Map.prototype.set`: an existing key keeps its position and gets the
new value; a new key is appended. -/
def mapSet (m : List (String × ℕ)) (k : String) (v : ℕ) : List (String × ℕ) :=
  if m.any (fun e => e.1 == k) then
    m.map fun e => if e.1 == k then (k, v) else e
  else m ++ [(k, v)]

/-- `/(skill|technology|experience|proficient)/.test(c)` — alternation of
literal substrings, case-sensitive (no `i` flag; the contexts are already
lowercased). -/
def jsTestAlt (alts : List (List Char)) (s : List Char) : Bool :=
  alts.any fun a => containsSeq a s

/-- `/\d+\s*years?/.test(s)`: some digit run, optional whitespace, then
`"year"`. -/
def yearsAfterDigits (l : List Char) : Bool :=
  isPrefixChars ['y', 'e', 'a', 'r'] ((l.dropWhile isDigit09).dropWhile jsWs)

def hasYearsPhrase : List Char → Bool
  | [] => false
  | c :: rest => (isDigit09 c && yearsAfterDigits rest) || hasYearsPhrase rest

/-- `calcSkillScore` (index.js 425-432): start from the number of contexts;
+2 per context matching `/(skill|technology|experience|proficient)/`;
+1 per context matching `/\d+\s*years?/`. -/
def calcSkillScore (ctxs : List String) : ℕ :=
  ctxs.foldl
    (fun s c =>
      (s + (if jsTestAlt ["skill".data, "technology".data,
              "experience".data, "proficient".data] c.data then 2 else 0))
        + (if hasYearsPhrase c.data then 1 else 0))
    ctxs.length

def idxFound (ctxOf : String → List String) (isPrimary : Bool) :
    List (String × ℕ) :=
  (idxSelectedCats isPrimary).foldl
    (fun m cat =>
      (skillCategoriesIdx cat).foldl
        (fun m2 skill =>
          let contexts := ctxOf ⟨lowerList skill.data⟩
          if contexts.isEmpty then m2
          else mapSet m2 skill (calcSkillScore contexts))
        m)
    []

def extractSkillsWithAIIdx (ctxOf : String → List String)
    (isPrimary : Bool) : List String :=
  ((List.insertionSort (fun a b : String × ℕ => b.2 ≤ a.2)
      (idxFound ctxOf isPrimary)).map Prod.fst).take
    (if isPrimary then 8 else 6)

/-! ### textExtractor skill scoring (`calculateSkillScore`, textExtractor 387-426) -/

/-- `calculateSkillScore(contexts, skill)`: per context, +1 base; +3 for
`'expert in'`/`'specialist'`/`'advanced'`; +2 for a skills-section word;
+2 for `/\d+\s*years?/` or `'experience'`; +1 for
`'project'`/`'developed'`/`'implemented'`.  The `includes` checks run on the
lowercased context, the years regex on the raw context.  The `skill`
parameter is unused by the source body; the `forEach` body is the named
step function below. -/
def scoreStep (score : ℕ) (context : String) : ℕ :=
  let contextLower := lowerList context.data
  let s1 := score + 1
  let s2 := s1 + (if containsSeq "expert in".data contextLower ||
      containsSeq "specialist".data contextLower ||
      containsSeq "advanced".data contextLower then 3 else 0)
  let s3 := s2 + (if containsSeq "skills".data contextLower ||
      containsSeq "technologies".data contextLower ||
      containsSeq "tech stack".data contextLower then 2 else 0)
  let s4 := s3 + (if hasYearsPhrase context.data ||
      containsSeq "experience".data contextLower then 2 else 0)
  s4 + (if containsSeq "project".data contextLower ||
      containsSeq "developed".data contextLower ||
      containsSeq "implemented".data contextLower then 1 else 0)

def calculateSkillScore (contexts : List String) (_skill : String) : ℕ :=
  contexts.foldl scoreStep 0

/-- The per-context points exactly as the specification states them:
1 base point plus the four context boosts. -/
def contextBoost (context : String) : ℕ :=
  let contextLower := lowerList context.data
  1 + (if containsSeq "expert in".data contextLower ||
        containsSeq "specialist".data contextLower ||
        containsSeq "advanced".data contextLower then 3 else 0)
    + (if containsSeq "skills".data contextLower ||
        containsSeq "technologies".data contextLower ||
        containsSeq "tech stack".data contextLower then 2 else 0)
    + (if hasYearsPhrase context.data ||
        containsSeq "experience".data contextLower then 2 else 0)
    + (if containsSeq "project".data contextLower ||
        containsSeq "developed".data contextLower ||
        containsSeq "implemented".data contextLower then 1 else 0)

/-- The scoring formula as the specification states it: the sum over
contexts of the per-context points. -/
def skillScoreSpec (contexts : List String) : ℕ :=
  (contexts.map contextBoost).sum

/-! ### textExtractor skill extraction and the `skillRegex` scope bug
(`findSkillContexts`, textExtractor 290-349)

For a one-character skill the function returns the matching
skills-section windows.  For any longer skill, the `try` block computes
contexts into a `const skillRegex`-driven loop — but after the
`try`/`catch` the function runs `while ((match = skillRegex.exec(text)))`,
and `skillRegex` is declared only inside the `try` block scope, so
execution always reaches an unresolved identifier and throws a
`ReferenceError` before any `return`. -/

inductive JsError where
  | referenceError : JsError
deriving DecidableEq

/-- Case-insensitive literal matcher: returns the consumed characters (in
original case) and the rest. -/
def matchLitCI : List Char → List Char → Option (List Char × List Char)
  | [], cs => some ([], cs)
  | _ :: _, [] => none
  | l :: ls, c :: cs =>
    if ciChar l c then (matchLitCI ls cs).map (fun p => (c :: p.1, p.2))
    else none

/-- Greedy `+` on a character class. -/
def takeWhile1 (p : Char → Bool) (cs : List Char) :
    Option (List Char × List Char) :=
  let t := cs.takeWhile p
  if t.isEmpty then none else some (t, cs.drop t.length)

/-- `(?:skills?|technologies?|tech\s+stack)` at the current position. -/
def matchSectionKw (cs : List Char) : Option (List Char × List Char) :=
  matchLitCI "skills".data cs <|> matchLitCI "skill".data cs <|>
  matchLitCI "technologies".data cs <|> matchLitCI "technologie".data cs <|>
  (do
    let (m1, r1) ← matchLitCI "tech".data cs
    let (m2, r2) ← takeWhile1 jsWs r1
    let (m3, r3) ← matchLitCI "stack".data r2
    some (m1 ++ m2 ++ m3, r3))

/-- `[^\n]*` (greedy to end of line). -/
def takeRestOfLine (cs : List Char) : List Char × List Char :=
  (cs.takeWhile (fun c => !(c == '\n')), cs.dropWhile (fun c => !(c == '\n')))

/-- `(?:\n[^\n]*){0,10}` (greedy). -/
def takeExtraLines : ℕ → List Char → List Char × List Char
  | 0, cs => ([], cs)
  | n + 1, cs =>
    match cs with
    | '\n' :: rest =>
      let (line, rest2) := takeRestOfLine rest
      let (more, fin) := takeExtraLines n rest2
      ('\n' :: (line ++ more), fin)
    | _ => ([], cs)

/-- One match of the skills-section pattern at the current position. -/
def matchSectionAt (cs : List Char) : Option (List Char × List Char) := do
  let (kw, r1) ← matchSectionKw cs
  let (line1, r2) := takeRestOfLine r1
  let (extra, r3) := takeExtraLines 10 r2
  some (kw ++ line1 ++ extra, r3)

/-- `text.match(skillSectionPattern)` with the `g` flag: scan left to
right, continuing after each match end (fuel = list length suffices since
every match consumes at least one character). -/
def scanSectionsAux : ℕ → List Char → List (List Char)
  | 0, _ => []
  | _, [] => []
  | fuel + 1, c :: rest =>
    match matchSectionAt (c :: rest) with
    | some (m, restAfter) => m :: scanSectionsAux fuel restAfter
    | none => scanSectionsAux fuel rest

def scanSections (cs : List Char) : List (List Char) :=
  scanSectionsAux cs.length cs

def wordOpt : Option Char → Bool
  | none => false
  | some c => isWordChar c

/-- An ECMAScript `\b` between two (optional) adjacent characters. -/
def bAt (a b : Option Char) : Bool := wordOpt a != wordOpt b

/-- `` new RegExp(`\\b${skill}\\b(?!\\w)`, 'gi').test(section) `` for a
one-character skill. -/
def testSingleAux (c : Char) : Option Char → List Char → Bool
  | _, [] => false
  | prev, x :: rest =>
    (ciChar x c && bAt prev (some x) && bAt (some x) rest.head?
      && !wordOpt rest.head?) ||
    testSingleAux c (some x) rest

def testSingleLetter (c : Char) (sec : List Char) : Bool :=
  testSingleAux c none sec

/-- `findSkillContexts` (textExtractor 290-349).  The one-character branch
returns its section windows; every longer skill reaches the
out-of-scope `skillRegex` use after the `try`/`catch` and throws a
`ReferenceError` (the contexts computed inside the `try` block are
discarded by the throw). -/
def findSkillContextsTx (text skill : String) : Except JsError (List String) :=
  if skill.length == 1 then
    .ok ((((scanSections (lowerList text.data)).filter fun sec =>
        match skill.data with
        | [c] => testSingleLetter c sec
        | _ => false).map fun sec => (⟨sec⟩ : String)))
  else .error .referenceError

def skillCategoriesTx (cat : String) : List String :=
  if cat = "programming" then
    ["JavaScript", "Python", "Java", "C++", "C#", "PHP", "Ruby", "Go", "Rust",
     "TypeScript", "Swift", "Kotlin", "Scala", "MATLAB", "Dart",
     "Objective-C", "Perl", "Haskell"]
  else if cat = "web" then
    ["React", "Angular", "Vue.js", "Vue", "Node.js", "Express", "Django",
     "Flask", "Spring", "ASP.NET", "Laravel", "Rails", "HTML", "CSS",
     "Bootstrap", "Tailwind", "jQuery", "Next.js", "Nuxt.js", "Gatsby",
     "Svelte"]
  else if cat = "mobile" then
    ["React Native", "Flutter", "Xamarin", "iOS", "Android", "Ionic",
     "Cordova"]
  else if cat = "database" then
    ["MySQL", "PostgreSQL", "MongoDB", "Redis", "Cassandra", "Oracle",
     "SQL Server", "SQLite", "DynamoDB", "Firebase", "Elasticsearch"]
  else if cat = "cloud" then
    ["AWS", "Azure", "GCP", "Google Cloud", "Heroku", "DigitalOcean",
     "Alibaba Cloud"]
  else if cat = "devops" then
    ["Docker", "Kubernetes", "Jenkins", "Terraform", "Ansible", "Chef",
     "Puppet", "GitLab CI", "GitHub Actions", "CircleCI"]
  else if cat = "tools" then
    ["Git", "GitHub", "GitLab", "Bitbucket", "JIRA", "Confluence", "Slack",
     "Trello", "Postman", "Swagger", "Insomnia", "VS Code", "IntelliJ",
     "Eclipse"]
  else []

def txSelectedCats (isPrimary : Bool) : List String :=
  if isPrimary then ["programming", "web", "mobile", "database", "cloud"]
  else ["devops", "tools"]

/-- The per-skill body of the inner `forEach` in `extractSkillsWithAI`
(textExtractor 270-279). -/
def txSkillStep (textLower : String) (m2 : List (String × ℕ)) (skill : String) :
    Except JsError (List (String × ℕ)) := do
  let contexts ← findSkillContextsTx textLower ⟨lowerList skill.data⟩
  if contexts.isEmpty then pure m2
  else pure (mapSet m2 skill (calculateSkillScore contexts skill))

/-- The per-category body of the outer `forEach`. -/
def txCatStep (textLower : String) (m : List (String × ℕ)) (cat : String) :
    Except JsError (List (String × ℕ)) :=
  (skillCategoriesTx cat).foldlM (txSkillStep textLower) m

/-- `extractSkillsWithAI` (textExtractor 260-288): a thrown exception from
`findSkillContexts` propagates out of the `forEach` loops and aborts the
whole extraction. -/
def extractSkillsWithAITx (text : String) (isPrimary : Bool) :
    Except JsError (List String) := do
  let found ← (txSelectedCats isPrimary).foldlM
    (txCatStep ⟨lowerList text.data⟩) ([] : List (String × ℕ))
  pure (((List.insertionSort (fun a b : String × ℕ => b.2 ≤ a.2) found).map
      Prod.fst).take (if isPrimary then 8 else 6))

/-! ### LinkedIn extraction (`extractLinkedIn`, resumeParser 464-483)

```js
const linkedinPatterns = [
    /(https?:\/\/)?(?:www\.)?linkedin\.com\/in\/[a-zA-Z0-9\-]+\/?/gi,
    /linkedin[:\s]*([a-zA-Z0-9\-\/\.]+)/gi,
    /linkedin\.com\/in\/([a-zA-Z0-9\-]+)/gi
];
for (const pattern of linkedinPatterns) {
    const match = text.match(pattern);
    if (match) {
        let url = match[0];
        if (!url.startsWith('http')) {
            const username = url.split('/').pop() || url.replace(/linkedin[:\s]*/, '');
            url = `https://linkedin.com/in/${username}`;
        }
        return url;
    }
}
return null;
```

Each pattern is hand-compiled into an anchored matcher returning
`match[0]` (original-case characters); `text.match` takes the leftmost
position at which the anchored matcher succeeds.  The greedy/backtracking
order of the optional protocol and `www.` groups is preserved; the
character classes of `[:\s]*` and of the handle are disjoint, so the
greedy star needs no backtracking. -/

def p1Handle (c : Char) : Bool := isAlnum c || c == '-'

def p2Handle (c : Char) : Bool := isAlnum c || c == '-' || c == '/' || c == '.'

def sepColonWs (c : Char) : Bool := c == ':' || jsWs c

/-- First-success alternation (regex alternative preference order). -/
def optAlt (a b : Option (List Char)) : Option (List Char) :=
  match a with
  | some x => some x
  | none => b

/-- `linkedin\.com\/in\/[a-zA-Z0-9\-]+\/?` at the current position. -/
def p1Core (cs : List Char) : Option (List Char) :=
  match matchLitCI "linkedin.com/in/".data cs with
  | none => none
  | some (mc, r1) =>
    match takeWhile1 p1Handle r1 with
    | none => none
    | some (mh, r2) =>
      match r2 with
      | '/' :: _ => some (mc ++ (mh ++ ['/']))
      | _ => some (mc ++ mh)

/-- `(?:www\.)?` then the core (greedy: with `www.` first). -/
def p1AfterProto (cs : List Char) : Option (List Char) :=
  optAlt
    (match matchLitCI "www.".data cs with
      | none => none
      | some (mw, r1) =>
        match p1Core r1 with
        | none => none
        | some core => some (mw ++ core))
    (p1Core cs)

/-- The protocol alternative `https://` or `http://` (greedy `s?`). -/
def p1Proto (proto : String) (cs : List Char) : Option (List Char) :=
  match matchLitCI proto.data cs with
  | none => none
  | some (mp, r1) =>
    match p1AfterProto r1 with
    | none => none
    | some rest => some (mp ++ rest)

/-- Pattern 1 anchored at the current position. -/
def p1At (cs : List Char) : Option (List Char) :=
  optAlt (p1Proto "https://" cs) (optAlt (p1Proto "http://" cs) (p1AfterProto cs))

/-- Pattern 2 (`linkedin[:\s]*([a-zA-Z0-9\-\/\.]+)`) anchored. -/
def p2At (cs : List Char) : Option (List Char) :=
  match matchLitCI "linkedin".data cs with
  | none => none
  | some (m1, r1) =>
    match takeWhile1 p2Handle (r1.drop (r1.takeWhile sepColonWs).length) with
    | none => none
    | some (h, _) => some (m1 ++ (r1.takeWhile sepColonWs ++ h))

/-- Pattern 3 (`linkedin\.com\/in\/([a-zA-Z0-9\-]+)`) anchored. -/
def p3At (cs : List Char) : Option (List Char) :=
  match matchLitCI "linkedin.com/in/".data cs with
  | none => none
  | some (m1, r1) =>
    match takeWhile1 p1Handle r1 with
    | none => none
    | some (h, _) => some (m1 ++ h)

/-- `text.match(p)`: the leftmost position where the anchored matcher
succeeds. -/
def firstMatch (f : List Char → Option (List Char)) : List Char → Option (List Char)
  | [] => f []
  | c :: rest => optAlt (f (c :: rest)) (firstMatch f rest)

/-- `url.split('/').pop()`: the segment after the last `/` (empty when the
string ends with `/`). -/
def lastSegment (l : List Char) : List Char :=
  (l.reverse.takeWhile (fun c => !(c == '/'))).reverse

/-- `url.replace(/linkedin[:\s]*/, '')`: remove the first (case-sensitive)
occurrence of `linkedin` and the following run of `[:\s]`. -/
def replaceLinkedinPrefix : List Char → List Char
  | [] => []
  | c :: rest =>
    if isPrefixChars "linkedin".data (c :: rest) then
      ((c :: rest).drop 8).dropWhile sepColonWs
    else c :: replaceLinkedinPrefix rest

/-- The URL produced from a pattern match (resumeParser 474-479). -/
def linkedInUrlFrom (m : List Char) : String :=
  if isPrefixChars "http".data m then ⟨m⟩
  else
    let username := lastSegment m
    if username.isEmpty then
      ⟨"https://linkedin.com/in/".data ++ replaceLinkedinPrefix m⟩
    else ⟨"https://linkedin.com/in/".data ++ username⟩

def extractLinkedIn (text : String) : Option String :=
  match firstMatch p1At text.data with
  | some m => some (linkedInUrlFrom m)
  | none =>
    match firstMatch p2At text.data with
    | some m => some (linkedInUrlFrom m)
    | none => (firstMatch p3At text.data).map linkedInUrlFrom

/-- Case-insensitive containment of `linkedin.com/in/`
(`url.toLowerCase().includes('linkedin.com/in/')`). -/
def containsLinkedInCI (s : String) : Bool :=
  containsSeq "linkedin.com/in/".data (lowerList s.data)

/-- The precondition of claim C6, modelling "no LinkedIn URL and no
separable handle token nearby": at every (case-insensitive) occurrence of
the word `linkedin`, after skipping the maximal run of `[:\s]` characters
the text has ended or continues with a character outside the handle class
`[a-zA-Z0-9\-\/\.]`.  (An occurrence inside `linkedin.com/...` is followed
directly by `.`, a handle character, so such texts are excluded.) -/
def isPrefixCharsCI : List Char → List Char → Bool
  | [], _ => true
  | _ :: _, [] => false
  | a :: as, b :: bs => ciChar a b && isPrefixCharsCI as bs

def linkedinBareOnly : List Char → Bool
  | [] => true
  | c :: rest =>
    (if isPrefixCharsCI "linkedin".data (c :: rest) then
      ((((c :: rest).drop 8).dropWhile sepColonWs).isEmpty
        || !p2Handle ((((c :: rest).drop 8).dropWhile sepColonWs).headD ' '))
     else true) && linkedinBareOnly rest

/-! ### Name selection (`extractNameWithAI`, src/utils/textExtractor.js
93-155 and src/index.js 304-333)

Both variants collect scored candidates from three strategies and pick the
best.  The confidences `0.9` / `0.8` / `0.7` are modelled scaled by ten as
the naturals `9` / `8` / `7`: the selector only ever compares them against
each other, and the comparisons agree. -/

/-- `text.split('\n').map(line => line.trim()).filter(line => line.length > 0)`. -/
def nameLines (text : String) : List (List Char) :=
  ((splitNl text.data).map jsTrim).filter fun l => !l.isEmpty

/-- `line.split(/\s+/)`: each maximal whitespace run is one separator (JS
keeps an empty first/last element when the string starts/ends with
whitespace).  The flag records being inside a whitespace run. -/
def splitWsAux : Bool → List Char → List Char → List (List Char)
  | _, acc, [] => [acc.reverse]
  | prevWs, acc, c :: rest =>
    if jsWs c then
      if prevWs then splitWsAux true acc rest
      else acc.reverse :: splitWsAux true [] rest
    else splitWsAux false (c :: acc) rest

def jsSplitWs (l : List Char) : List (List Char) := splitWsAux false [] l

/-- `/^[A-Z][A-Z\s]{8,50}$/` (strategy 1, all-caps line): anchored at both
ends, so it holds exactly when the first character is `[A-Z]`, the rest all
lie in `[A-Z\s]`, and the rest has length between 8 and 50. -/
def s1AllCaps (l : List Char) : Bool :=
  match l with
  | [] => false
  | c :: rest =>
    isUpperAZ c && rest.all (fun x => isUpperAZ x || jsWs x) &&
    decide (8 ≤ rest.length) && decide (rest.length ≤ 50)

/-- `/(WORK|EXPERIENCE|EDUCATION|PROJECT|CERTIFICATION|SKILLS|TOOLS)/i`
(the extra rejection test of the index.js variant's strategy 1; it is only
applied to lines whose characters are `[A-Z\s]`, where ASCII lowercasing is
exact). -/
def idxCapsStop (l : List Char) : Bool :=
  containsSeq "work".data (lowerList l) ||
  containsSeq "experience".data (lowerList l) ||
  containsSeq "education".data (lowerList l) ||
  containsSeq "project".data (lowerList l) ||
  containsSeq "certification".data (lowerList l) ||
  containsSeq "skills".data (lowerList l) ||
  containsSeq "tools".data (lowerList l)

/-- State machine for `/^[A-Z][a-z]+ [A-Z][a-z]+(?: [A-Z][a-z]+)*$/`
(strategy 2, title-case line): state 0 expects the capital starting a word,
state 1 the mandatory first lowercase letter, state 2 is inside the
lowercase run; `words` counts completed words.  The character classes
`[A-Z]`, `[a-z]` and the space are disjoint, so the greedy scan is exact. -/
def s2Aux : ℕ → ℕ → List Char → Bool
  | st, words, [] => decide (st = 2) && decide (1 ≤ words)
  | st, words, c :: rest =>
    if st = 0 then (if isUpperAZ c then s2Aux 1 words rest else false)
    else if st = 1 then (if isLowerAZ c then s2Aux 2 words rest else false)
    else if isLowerAZ c then s2Aux 2 words rest
    else if c = ' ' then s2Aux 0 (words + 1) rest
    else false

def s2TitleCase (l : List Char) : Bool := s2Aux 0 0 l

/-- `/\+\d/.test(line)`: a `+` immediately followed by a digit occurs. -/
def plusDigit : List Char → Bool
  | [] => false
  | [_] => false
  | c :: d :: rest => (c == '+' && isDigit09 d) || plusDigit (d :: rest)

def startsDigit : List Char → Bool
  | [] => false
  | c :: _ => isDigit09 c

/-- The keyword list of `isNonNameLine` (textExtractor 158-175). -/
def nonNameKeywords : List String :=
  ["profile", "objective", "summary", "education", "experience", "skills",
   "contact", "phone", "email", "location", "resume", "cv", "curriculum",
   "bachelor", "master", "phd", "degree", "institute", "university",
   "college", "project", "certification", "language", "address",
   "qualification"]

/-- `isNonNameLine` (textExtractor 158-175). -/
def isNonNameLine (l : List Char) : Bool :=
  nonNameKeywords.any (fun k => containsSeq k.data (lowerList l)) ||
  l.any (fun c => c == '@') ||
  plusDigit l ||
  startsDigit l ||
  decide (l.length < 3) || decide (50 < l.length)

/-- The keyword list of the index.js `isNonNameLine` (index.js 335-343). -/
def idxBadKeywords : List String :=
  ["profile", "objective", "summary", "education", "experience",
   "skills", "key competencies", "competencies", "contact", "email",
   "address", "qualification", "projects", "tools"]

/-- The index.js `isNonNameLine`: its second test is `/@|\+|\d/` (any `@`,
`+` or digit anywhere). -/
def isNonNameLineIdx (l : List Char) : Bool :=
  idxBadKeywords.any (fun k => containsSeq k.data (lowerList l)) ||
  l.any (fun c => c == '@' || c == '+' || isDigit09 c) ||
  decide (l.length < 3) || decide (50 < l.length)

/-- One word of `formatName`:
`word.charAt(0).toUpperCase() + word.slice(1).toLowerCase()` (the words
consist of ASCII letters only, where the ASCII case maps are exact). -/
def capWord : List Char → List Char
  | [] => []
  | c :: rest => asciiUpper c :: lowerList rest

/-- `.split(' ')` on the single space character. -/
def splitSpAux : List Char → List Char → List (List Char)
  | acc, [] => [acc.reverse]
  | acc, c :: rest =>
    if c = ' ' then acc.reverse :: splitSpAux [] rest
    else splitSpAux (c :: acc) rest

def splitSp (l : List Char) : List (List Char) := splitSpAux [] l

/-- `formatName` (textExtractor 178-186 and index.js 346-349): drop
non-letter non-whitespace characters, trim, collapse whitespace runs to
single spaces, then capitalise each space-separated word. -/
def formatName (l : List Char) : String :=
  ⟨List.intercalate [' ']
    ((splitSp (collapseWs (jsTrim (l.filter fun c =>
      isAlphaAZ c || jsWs c)))).map capWord)⟩

/-- One entry of the `candidates` array of `extractNameWithAI`. -/
structure NameCand where
  name : String
  confidence : ℕ
  position : ℤ
deriving DecidableEq

/-- The sort comparator
`(a, b) => b.confidence - a.confidence || a.position - b.position`
as an ordering relation: higher confidence first, then smaller position. -/
def rCand (a b : NameCand) : Prop :=
  b.confidence < a.confidence ∨
  (a.confidence = b.confidence ∧ a.position ≤ b.position)

instance : DecidableRel rCand := fun a b =>
  inferInstanceAs (Decidable (b.confidence < a.confidence ∨
    (a.confidence = b.confidence ∧ a.position ≤ b.position)))

instance : IsTotal NameCand rCand := ⟨by
  intro a b
  unfold rCand
  omega⟩

instance : IsTrans NameCand rCand := ⟨by
  intro a b c hab hbc
  unfold rCand at hab hbc ⊢
  omega⟩

/-- The candidate list of the textExtractor variant.  Strategies 1 and 2
test single lines and are compiled concretely; strategy 3 matches the five
`namePatterns` against the whole text with multiline regexes, and is
abstracted as `kwMatches`, the list of per-pattern capture-group results in
pattern order (`none` when a pattern does not match). -/
def nameCandsTx (text : String) (kwMatches : List (Option String)) :
    List NameCand :=
  let lines := nameLines text
  ((lines.take 8).enum.filterMap fun p =>
    if s1AllCaps p.2 && decide (2 ≤ (jsSplitWs p.2).length) &&
        decide ((jsSplitWs p.2).length ≤ 5) then
      some ⟨formatName p.2, 9, (p.1 : ℤ)⟩
    else none) ++
  ((lines.take 8).enum.filterMap fun p =>
    if s2TitleCase p.2 && decide (p.2.length < 50) && !isNonNameLine p.2 then
      some ⟨formatName p.2, 8, (p.1 : ℤ)⟩
    else none) ++
  (kwMatches.filterMap fun o => o.map fun m1 => ⟨formatName m1.data, 7, -1⟩)

/-- The candidate list of the index.js variant: strategy 1 additionally
rejects lines matching the section-keyword alternation, and strategy 2 uses
the index.js `isNonNameLine`. -/
def nameCandsIdx (text : String) (kwMatches : List (Option String)) :
    List NameCand :=
  let lines := nameLines text
  ((lines.take 8).enum.filterMap fun p =>
    if s1AllCaps p.2 && !idxCapsStop p.2 && decide (2 ≤ (jsSplitWs p.2).length) &&
        decide ((jsSplitWs p.2).length ≤ 5) then
      some ⟨formatName p.2, 9, (p.1 : ℤ)⟩
    else none) ++
  ((lines.take 8).enum.filterMap fun p =>
    if s2TitleCase p.2 && decide (p.2.length < 50) && !isNonNameLineIdx p.2 then
      some ⟨formatName p.2, 8, (p.1 : ℤ)⟩
    else none) ++
  (kwMatches.filterMap fun o => o.map fun m1 => ⟨formatName m1.data, 7, -1⟩)

/-- The shared selection step (textExtractor 144-154, index.js 330-332):
the sentinel when no strategy produced a candidate, else the name of the
top element after sorting by the comparator (V8 `sort` with this consistent
comparator orders by confidence descending, position ascending; the stable
`insertionSort` realises it). -/
def selectTopName (cands : List NameCand) : String :=
  match List.insertionSort rCand cands with
  | [] => "Name Not Found"
  | c :: _ => c.name

def extractNameWithAITx (text : String) (kwMatches : List (Option String)) :
    String :=
  selectTopName (nameCandsTx text kwMatches)

def extractNameWithAIIdx (text : String) (kwMatches : List (Option String)) :
    String :=
  selectTopName (nameCandsIdx text kwMatches)

/-! ### The rule-based record (resumeParser 99-110), for claim C3

`ruleBasedInfo` is built from `cleanText = normalizeText(text)`.  The
whole-text regex scans feeding the name/email/phone/experience extractors
are deterministic functions of `cleanText`; their values on the given text
are collected in `TextScan`.  The skills fields, by contrast, call
`extractPrimarySkills`/`extractSecondarySkills`, which send the text to the
language model: their replies can differ between two runs on the same
text, and are therefore per-run inputs (`ModelReplies`). -/

structure TextScan where
  nameRes : String
  emailFirst : Option String
  phoneFirst : Option String
  expDirect : List ℚ
  expSpans : List DateSpan

/-- The parsed model replies of one run (see
`extractPrimarySkills`/`extractSecondarySkills`). -/
structure ModelReplies where
  primaryReply : Option (List String)
  secondaryReply : Option (List String)

/-- The `ruleBasedInfo` object of resumeParser 102-110. -/
def buildRuleBasedInfo (text : String) (scan : TextScan)
    (currentYear currentMonth : Int) (replies : ModelReplies) :
    CandidateRecord where
  name := scan.nameRes
  email := extractEmail scan.emailFirst
  phone := extractPhone scan.phoneFirst
  experience := extractExperienceEnhanced scan.expDirect scan.expSpans
    currentYear currentMonth
  linkedinUrl := extractLinkedIn (normalizeText text)
  primarySkills := extractPrimarySkills replies.primaryReply
  secondarySkills := extractSecondarySkills replies.secondaryReply

/-! Lemmas about the normalizer. -/

theorem replaceCr_no_cr (l : List Char) : ∀ c ∈ replaceCr l, c ≠ '\r' := by
  intro c hc
  simp only [replaceCr, List.mem_map] at hc
  obtain ⟨a, -, ha⟩ := hc
  by_cases h : a = '\r'
  · rw [if_pos h] at ha
    rw [← ha]
    decide
  · rw [if_neg h] at ha
    rw [← ha]
    exact h

theorem splitNl_ne_nil (l : List Char) : splitNl l ≠ [] := by
  cases l with
  | nil => simp [splitNl]
  | cons c rest =>
    by_cases h : c = '\n'
    · simp [splitNl, h]
    · simp [splitNl, h]

theorem splitNl_chars {l : List Char} {p : List Char} (hp : p ∈ splitNl l) :
    ∀ c ∈ p, c ∈ l ∧ c ≠ '\n' := by
  induction l generalizing p with
  | nil =>
    intro c hc
    simp [splitNl] at hp
    subst hp
    simp at hc
  | cons a rest ih =>
    intro c hc
    by_cases ha : a = '\n'
    · rw [show splitNl (a :: rest) = [] :: splitNl rest by
        simp [splitNl, ha]] at hp
      rcases List.mem_cons.mp hp with h | h
      · subst h; simp at hc
      · rcases ih h c hc with ⟨h1, h2⟩
        exact ⟨List.mem_cons_of_mem _ h1, h2⟩
    · rw [show splitNl (a :: rest)
          = (a :: (splitNl rest).headD []) :: (splitNl rest).tail by
        simp [splitNl, ha]] at hp
      rcases List.mem_cons.mp hp with h | h
      · subst h
        rcases List.mem_cons.mp hc with h1 | h1
        · subst h1; exact ⟨List.mem_cons_self _ _, ha⟩
        · have hmem : (splitNl rest).headD [] ∈ splitNl rest := by
            rcases hsp : splitNl rest with _ | ⟨l0, ls⟩
            · exact absurd hsp (splitNl_ne_nil rest)
            · simp
          rcases ih hmem c h1 with ⟨h2, h3⟩
          exact ⟨List.mem_cons_of_mem _ h2, h3⟩
      · have hmem : p ∈ splitNl rest := List.mem_of_mem_tail h
        rcases ih hmem c hc with ⟨h1, h2⟩
        exact ⟨List.mem_cons_of_mem _ h1, h2⟩

theorem collapseWsAux_chars {b : Bool} {l : List Char} :
    ∀ c ∈ collapseWsAux b l, c = ' ' ∨ (c ∈ l ∧ jsWs c = false) := by
  induction l generalizing b with
  | nil => simp [collapseWsAux]
  | cons a rest ih =>
    intro c hc
    by_cases hws : jsWs a
    · cases b with
      | true =>
        rw [show collapseWsAux true (a :: rest) = collapseWsAux true rest by
          simp [collapseWsAux, hws]] at hc
        rcases ih c hc with h | h
        · exact Or.inl h
        · exact Or.inr ⟨List.mem_cons_of_mem _ h.1, h.2⟩
      | false =>
        rw [show collapseWsAux false (a :: rest) = ' ' :: collapseWsAux true rest by
          simp [collapseWsAux, hws]] at hc
        rcases List.mem_cons.mp hc with h | h
        · exact Or.inl h
        · rcases ih c h with h1 | h1
          · exact Or.inl h1
          · exact Or.inr ⟨List.mem_cons_of_mem _ h1.1, h1.2⟩
    · rw [show collapseWsAux b (a :: rest) = a :: collapseWsAux false rest by
        simp [collapseWsAux, hws]] at hc
      rcases List.mem_cons.mp hc with h | h
      · subst h
        exact Or.inr ⟨List.mem_cons_self _ _, by simpa using hws⟩
      · rcases ih c h with h1 | h1
        · exact Or.inl h1
        · exact Or.inr ⟨List.mem_cons_of_mem _ h1.1, h1.2⟩

theorem collapseWsAux_true_head {l : List Char} {c : Char}
    (h : (collapseWsAux true l).head? = some c) : jsWs c = false := by
  induction l with
  | nil => simp [collapseWsAux] at h
  | cons a rest ih =>
    by_cases hws : jsWs a
    · rw [show collapseWsAux true (a :: rest) = collapseWsAux true rest by
        simp [collapseWsAux, hws]] at h
      exact ih h
    · rw [show collapseWsAux true (a :: rest) = a :: collapseWsAux false rest by
        simp [collapseWsAux, hws]] at h
      have hac : a = c := by simpa using h
      rw [← hac]
      simpa using hws

/-- The collapsed line never has two adjacent whitespace characters. -/
theorem collapseWsAux_chain (b : Bool) (l : List Char) :
    (collapseWsAux b l).Chain' (fun x y => ¬(jsWs x = true ∧ jsWs y = true)) := by
  induction l generalizing b with
  | nil => simp [collapseWsAux]
  | cons a rest ih =>
    by_cases hws : jsWs a
    · cases b with
      | true =>
        rw [show collapseWsAux true (a :: rest) = collapseWsAux true rest by
          simp [collapseWsAux, hws]]
        exact ih true
      | false =>
        rw [show collapseWsAux false (a :: rest) = ' ' :: collapseWsAux true rest by
          simp [collapseWsAux, hws]]
        rw [List.chain'_cons']
        refine ⟨?_, ih true⟩
        intro y hy hcontra
        have := collapseWsAux_true_head hy
        rw [this] at hcontra
        exact absurd hcontra.2 (by simp)
    · rw [show collapseWsAux b (a :: rest) = a :: collapseWsAux false rest by
        simp [collapseWsAux, hws]]
      rw [List.chain'_cons']
      refine ⟨?_, ih false⟩
      intro y _ hcontra
      rw [hcontra.1] at hws
      exact hws rfl

theorem dropWhile_head_not {p : Char → Bool} {l : List Char} {c : Char}
    (h : (l.dropWhile p).head? = some c) : p c = false := by
  induction l with
  | nil => simp [List.dropWhile] at h
  | cons a rest ih =>
    rw [List.dropWhile_cons] at h
    by_cases hp : p a
    · rw [if_pos hp] at h
      exact ih h
    · rw [if_neg hp] at h
      have hac : a = c := by simpa using h
      rw [← hac]
      simpa using hp

theorem jsTrim_sublist (l : List Char) : jsTrim l <+ l := by
  have h1 : l.dropWhile jsWs <+ l := List.dropWhile_sublist _
  have h2 : (l.dropWhile jsWs).reverse.dropWhile jsWs <+ (l.dropWhile jsWs).reverse :=
    List.dropWhile_sublist _
  calc jsTrim l <+ (l.dropWhile jsWs).reverse.reverse := by
        exact List.Sublist.reverse h2
    _ = l.dropWhile jsWs := by rw [List.reverse_reverse]
    _ <+ l := h1

theorem jsTrim_pref (l : List Char) : jsTrim l <+: l.dropWhile jsWs := by
  unfold jsTrim
  have h : (l.dropWhile jsWs).reverse.dropWhile jsWs <:+ (l.dropWhile jsWs).reverse :=
    List.dropWhile_suffix _
  have h2 := List.reverse_prefix.mpr h
  rwa [List.reverse_reverse] at h2

theorem jsTrim_mid (l : List Char) : jsTrim l <:+: l := by
  have h1 := jsTrim_pref l
  have h2 : l.dropWhile jsWs <:+ l := List.dropWhile_suffix jsWs
  exact h1.isInfix.trans h2.isInfix

theorem jsTrim_head {l : List Char} {c : Char}
    (h : (jsTrim l).head? = some c) : jsWs c = false := by
  have hpre := jsTrim_pref l
  rcases htr : jsTrim l with _ | ⟨a, rest⟩
  · rw [htr] at h; simp at h
  · rw [htr] at h hpre
    simp at h
    obtain ⟨t, ht⟩ := hpre
    have : (l.dropWhile jsWs).head? = some a := by rw [← ht]; rfl
    rw [← h]
    exact dropWhile_head_not this

theorem jsTrim_last {l : List Char} {c : Char}
    (h : (jsTrim l).getLast? = some c) : jsWs c = false := by
  unfold jsTrim at h
  rw [List.getLast?_reverse] at h
  exact dropWhile_head_not h

theorem cleanLine_chars {l : List Char} :
    ∀ c ∈ cleanLine l, c = ' ' ∨ (c ∈ l ∧ jsWs c = false) := by
  intro c hc
  exact collapseWsAux_chars c ((jsTrim_sublist (collapseWs l)).subset hc)

theorem cleanLine_chain (l : List Char) :
    (cleanLine l).Chain' (fun x y => ¬(jsWs x = true ∧ jsWs y = true)) := by
  have h1 := collapseWsAux_chain false l
  have h2 := jsTrim_mid (collapseWs l)
  exact h1.infix h2

theorem joinNl_chars (ls : List (List Char)) :
    ∀ c ∈ joinNl ls, c = '\n' ∨ ∃ l ∈ ls, c ∈ l := by
  induction ls with
  | nil => simp [joinNl]
  | cons a tl ih =>
    cases tl with
    | nil =>
      intro c hc
      right
      exact ⟨a, by simp, by simpa [joinNl] using hc⟩
    | cons b tl2 =>
      intro c hc
      rw [show joinNl (a :: b :: tl2) = a ++ '\n' :: joinNl (b :: tl2) from rfl] at hc
      rcases mem_append.mp hc with h | h
      · right; exact ⟨a, mem_cons_self _ _, h⟩
      · rcases mem_cons.mp h with h1 | h1
        · left; exact h1
        · rcases ih c h1 with h2 | ⟨l, hl, hcl⟩
          · left; exact h2
          · right; exact ⟨l, mem_cons_of_mem _ hl, hcl⟩

theorem normLines_mem {t : String} {l : List Char} (hl : l ∈ normLines t) :
    (∃ p ∈ splitNl (replaceCr (replaceCrLf t.data)), l = cleanLine p) ∧ l ≠ [] := by
  unfold normLines at hl
  have h1 := List.mem_filter.mp hl
  obtain ⟨p, hp, hpl⟩ := List.mem_map.mp h1.1
  refine ⟨⟨p, hp, hpl.symm⟩, ?_⟩
  intro hnil
  rw [hnil] at h1
  simp at h1

/-- C7: `normalizeText` unifies line endings to `\n`, collapses each line's
internal whitespace runs to single spaces and trims them, removes blank
lines, and preserves the order of the remaining lines; the empty input
yields the empty output, and the function is total (never fails). -/
theorem claim_C7_normalizeText (t : String) :
    normalizeText "" = "" ∧
    normalizeText t = String.mk (joinNl (normLines t)) ∧
    normLines t <+ (splitNl (replaceCr (replaceCrLf t.data))).map cleanLine ∧
    (∀ c ∈ (normalizeText t).data, c ≠ '\r') ∧
    (∀ l ∈ normLines t, l ≠ [] ∧
      (∀ c ∈ l, c ≠ '\n' ∧ c ≠ '\r' ∧ (jsWs c = true → c = ' ')) ∧
      (∀ c, l.head? = some c → jsWs c = false) ∧
      (∀ c, l.getLast? = some c → jsWs c = false) ∧
      l.Chain' (fun x y => ¬(jsWs x = true ∧ jsWs y = true))) := by
  have key : ∀ l ∈ normLines t, ∀ c ∈ l,
      c = ' ' ∨ (c ∈ replaceCr (replaceCrLf t.data) ∧ c ≠ '\n' ∧ jsWs c = false) := by
    intro l hl c hc
    obtain ⟨⟨p, hp, hpeq⟩, -⟩ := normLines_mem hl
    rw [hpeq] at hc
    rcases cleanLine_chars c hc with h | ⟨hcp, hws⟩
    · exact Or.inl h
    · rcases splitNl_chars hp c hcp with ⟨h1, h2⟩
      exact Or.inr ⟨h1, h2, hws⟩
  refine ⟨by decide, rfl, List.filter_sublist _, ?_, ?_⟩
  · intro c hc
    rcases joinNl_chars (normLines t) c hc with h | ⟨l, hl, hcl⟩
    · rw [h]; decide
    · rcases key l hl c hcl with h | ⟨h1, -, -⟩
      · rw [h]; decide
      · exact replaceCr_no_cr _ c h1
  · intro l hl
    obtain ⟨⟨p, hp, hpeq⟩, hne⟩ := normLines_mem hl
    refine ⟨hne, ?_, ?_, ?_, ?_⟩
    · intro c hc
      rcases key l hl c hc with h | ⟨h1, h2, h3⟩
      · subst h
        refine ⟨by decide, by decide, fun _ => rfl⟩
      · refine ⟨h2, replaceCr_no_cr _ c h1, ?_⟩
        intro hws
        rw [hws] at h3
        exact absurd h3 (by simp)
    · intro c hc
      rw [hpeq] at hc
      exact jsTrim_head hc
    · intro c hc
      rw [hpeq] at hc
      exact jsTrim_last hc
    · rw [hpeq]
      exact cleanLine_chain p

/-- Witness for C7 at a concrete input: the line `"x\t y"` of
`" a\r\n\r\nx\t y "` normalizes to `"x y"`, whose head is not whitespace. -/
theorem claim_C7_normalizeText_witness :
    normalizeText " a\r\n\r\nx\t y " = "a\nx y" ∧ jsWs 'x' = false := by
  refine ⟨by decide, ?_⟩
  exact ((claim_C7_normalizeText " a\r\n\r\nx\t y ").2.2.2.2
    "x y".data (by decide)).2.2.1 'x' (by decide)

/-! ### Skill scoring (C9) -/

theorem scoreStep_eq (n : ℕ) (c : String) : scoreStep n c = n + contextBoost c := by
  unfold scoreStep contextBoost
  dsimp only
  omega

theorem foldl_scoreStep (l : List String) :
    ∀ n : ℕ, l.foldl scoreStep n = n + skillScoreSpec l := by
  induction l with
  | nil => intro n; simp [skillScoreSpec]
  | cons c rest ih =>
    intro n
    rw [List.foldl_cons, scoreStep_eq, ih]
    unfold skillScoreSpec
    rw [List.map_cons, List.sum_cons]
    omega

/-- C9 (counterexample to the claim as stated): the index.js variant
`calcSkillScore` uses a different formula (+2 for
skill/technology/experience/proficient, +1 for a years phrase, no other
boosts), so on the context `"expert in advanced"` it scores 1 while the
claimed formula gives 1 + 3 = 4. -/
theorem claim_C9_counterexample :
    calcSkillScore ["expert in advanced"] = 1 ∧
    skillScoreSpec ["expert in advanced"] = 4 ∧
    calcSkillScore ["expert in advanced"] ≠ skillScoreSpec ["expert in advanced"] := by
  refine ⟨by decide, by decide, by decide⟩

/-- C9 (amended): the textExtractor scorer `calculateSkillScore` computes
exactly the claimed formula — for every skill and every context list, the
score is the sum over contexts of 1 base point, +3 for expert
in/specialist/advanced, +2 for a skills-section word, +2 for a years phrase
or `experience`, and +1 for project/developed/implemented; the index.js
variant `calcSkillScore` uses a different formula (see the
counterexample). -/
theorem claim_C9_amended (skill : String) (contexts : List String) :
    calculateSkillScore contexts skill = skillScoreSpec contexts := by
  unfold calculateSkillScore
  rw [foldl_scoreStep, Nat.zero_add]

/-! ### The skillRegex scope bug (C10) -/

theorem findSkillContextsTx_error (text skill : String) (h : skill.length ≠ 1) :
    findSkillContextsTx text skill = .error .referenceError := by
  unfold findSkillContextsTx
  rw [if_neg (by simpa using h)]

theorem exceptFoldlM_error {α β : Type} {f : β → α → Except JsError β} {b : β}
    {a : α} {l : List α} {e : JsError} (h : f b a = .error e) :
    (a :: l).foldlM f b = Except.error e := by
  rw [List.foldlM_cons, h]
  rfl

/-- C10: for every text and every vocabulary skill of length at least 2,
`findSkillContexts` in textExtractor reaches the use of `skillRegex` after
its `try`/`catch` block — an identifier declared only inside the `try`
block — and throws a `ReferenceError` instead of returning a context list;
consequently `extractSkillsWithAI` in textExtractor never returns normally
(its first processed vocabulary skill is always multi-letter). -/
theorem claim_C10_skillRegex :
    (∀ text skill : String, 2 ≤ skill.length →
      findSkillContextsTx text skill = .error .referenceError) ∧
    (∀ (text : String) (isPrimary : Bool),
      extractSkillsWithAITx text isPrimary = .error .referenceError) := by
  constructor
  · intro text skill h
    exact findSkillContextsTx_error text skill (by omega)
  · intro text p
    have hskill : ∀ (m2 : List (String × ℕ)) (skill : String),
        skill.data.length ≠ 1 →
        txSkillStep ⟨lowerList text.data⟩ m2 skill = .error .referenceError := by
      intro m2 skill hl
      unfold txSkillStep
      have hlen : (⟨lowerList skill.data⟩ : String).length ≠ 1 := by
        show (lowerList skill.data).length ≠ 1
        unfold lowerList
        rw [List.length_map]
        exact hl
      rw [findSkillContextsTx_error _ _ hlen]
      rfl
    cases p
    · have hcat : txCatStep ⟨lowerList text.data⟩ [] "devops"
          = .error .referenceError := by
        unfold txCatStep
        rw [show skillCategoriesTx "devops"
          = "Docker" :: ["Kubernetes", "Jenkins", "Terraform", "Ansible",
            "Chef", "Puppet", "GitLab CI", "GitHub Actions", "CircleCI"]
          from rfl]
        exact exceptFoldlM_error (hskill [] "Docker" (by decide))
      unfold extractSkillsWithAITx
      rw [show txSelectedCats false = "devops" :: ["tools"] from rfl,
        exceptFoldlM_error hcat]
      rfl
    · have hcat : txCatStep ⟨lowerList text.data⟩ [] "programming"
          = .error .referenceError := by
        unfold txCatStep
        rw [show skillCategoriesTx "programming"
          = "JavaScript" :: ["Python", "Java", "C++", "C#", "PHP", "Ruby",
            "Go", "Rust", "TypeScript", "Swift", "Kotlin", "Scala", "MATLAB",
            "Dart", "Objective-C", "Perl", "Haskell"] from rfl]
        exact exceptFoldlM_error (hskill [] "JavaScript" (by decide))
      unfold extractSkillsWithAITx
      rw [show txSelectedCats true
          = "programming" :: ["web", "mobile", "database", "cloud"] from rfl,
        exceptFoldlM_error hcat]
      rfl

/-- Witness for C10 at a concrete skill: `"python"` (length 6 >= 2). -/
theorem claim_C10_skillRegex_witness :
    findSkillContextsTx "Skills: Python, React" "python"
      = .error .referenceError :=
  claim_C10_skillRegex.1 "Skills: Python, React" "python" (by decide)

/-! ### LinkedIn extraction lemmas (C5, C6) -/

theorem charOfNatAux_toNat (n : ℕ) (h : n.isValidChar) :
    (Char.ofNatAux n h).toNat = n := by
  simp [Char.ofNatAux, Char.toNat, UInt32.toNat, BitVec.toNat_ofNatLt]

theorem isUpperAZ_bounds {x : Char} (h : isUpperAZ x = true) :
    65 ≤ x.toNat ∧ x.toNat ≤ 90 := by
  unfold isUpperAZ at h
  simp only [Bool.and_eq_true, decide_eq_true_eq] at h
  obtain ⟨h1, h2⟩ := h
  rw [Char.le_def] at h1 h2
  rw [UInt32.le_def] at h1 h2
  exact ⟨BitVec.le_def.mp h1, BitVec.le_def.mp h2⟩

theorem asciiLower_toNat_of_upper {x : Char} (h : isUpperAZ x = true) :
    (asciiLower x).toNat = x.toNat + 32 := by
  obtain ⟨h1, h2⟩ := isUpperAZ_bounds h
  unfold asciiLower
  rw [if_pos h]
  have hv : (x.toNat + 32).isValidChar := Or.inl (by omega)
  rw [Char.ofNat, dif_pos hv]
  exact charOfNatAux_toNat _ hv

/-- A character that case-insensitively matches `.` is `.` itself. -/
theorem ciChar_dot {x : Char} (h : ciChar '.' x = true) : x = '.' := by
  unfold ciChar at h
  rw [show asciiLower '.' = '.' from by decide] at h
  have h2 : asciiLower x = '.' := (eq_of_beq h).symm
  by_cases hu : isUpperAZ x = true
  · exfalso
    have h3 := asciiLower_toNat_of_upper hu
    obtain ⟨h4, -⟩ := isUpperAZ_bounds hu
    rw [h2] at h3
    rw [show ('.' : Char).toNat = 46 from by decide] at h3
    omega
  · unfold asciiLower at h2
    rw [if_neg hu] at h2
    exact h2

theorem not_http_of_lower_l {c : Char} (h : asciiLower c = 'l')
    (rest : List Char) : isPrefixChars "http".data (c :: rest) = false := by
  have hne : ('h' == c) = false := by
    cases hb : ('h' == c) with
    | false => rfl
    | true =>
      have : 'h' = c := eq_of_beq hb
      rw [← this] at h
      exact absurd h (by decide)
  show (('h' == c) && isPrefixChars "ttp".data rest) = false
  rw [hne]
  rfl

theorem matchLitCI_some {lit : List Char} :
    ∀ {cs m r : List Char}, matchLitCI lit cs = some (m, r) →
    cs = m ++ r ∧ lowerList m = lowerList lit := by
  induction lit with
  | nil =>
    intro cs m r h
    rw [show matchLitCI [] cs = some ([], cs) from rfl] at h
    simp only [Option.some.injEq, Prod.mk.injEq] at h
    obtain ⟨h1, h2⟩ := h
    subst h1
    subst h2
    exact ⟨rfl, rfl⟩
  | cons l ls ih =>
    intro cs m r h
    cases cs with
    | nil => exact absurd h (by simp [matchLitCI])
    | cons c cs2 =>
      unfold matchLitCI at h
      by_cases hc : ciChar l c = true
      · rw [if_pos hc] at h
        cases hm : matchLitCI ls cs2 with
        | none => rw [hm] at h; simp at h
        | some pr =>
          obtain ⟨m2, r2⟩ := pr
          rw [hm] at h
          have h' : (c :: m2, r2) = (m, r) := by simpa using h
          obtain ⟨h1, h2⟩ := ih hm
          cases h'
          constructor
          · rw [h1]
            rfl
          · unfold lowerList at h2 ⊢
            simp only [List.map_cons]
            rw [h2, ← eq_of_beq hc]
      · rw [if_neg hc] at h
        simp at h

theorem matchLitCI_length {lit cs m r : List Char}
    (h : matchLitCI lit cs = some (m, r)) : m.length = lit.length := by
  have h2 := (matchLitCI_some h).2
  have h3 : (lowerList m).length = (lowerList lit).length := by rw [h2]
  unfold lowerList at h3
  simpa using h3

theorem drop_takeWhile_eq_dropWhile (p : Char → Bool) :
    ∀ l : List Char, l.drop (l.takeWhile p).length = l.dropWhile p := by
  intro l
  induction l with
  | nil => rfl
  | cons a rest ih =>
    rw [List.takeWhile_cons, List.dropWhile_cons]
    by_cases hp : p a = true
    · rw [if_pos hp, if_pos hp]
      simpa using ih
    · rw [if_neg hp, if_neg hp]
      rfl

theorem takeWhile1_some {p : Char → Bool} {cs t r : List Char}
    (h : takeWhile1 p cs = some (t, r)) :
    cs = t ++ r ∧ t = cs.takeWhile p ∧ ∃ hd tl, t = hd :: tl ∧ p hd = true := by
  unfold takeWhile1 at h
  by_cases he : (cs.takeWhile p).isEmpty
  · rw [if_pos he] at h; simp at h
  · rw [if_neg he] at h
    simp only [Option.some.injEq, Prod.mk.injEq] at h
    obtain ⟨ht, hr⟩ := h
    have happ : cs = cs.takeWhile p ++ cs.drop (cs.takeWhile p).length := by
      rw [drop_takeWhile_eq_dropWhile]
      exact (List.takeWhile_append_dropWhile p cs).symm
    refine ⟨by rw [← ht, ← hr]; exact happ, ht.symm, ?_⟩
    cases hcs : cs.takeWhile p with
    | nil => rw [hcs] at he; simp at he
    | cons hd tl =>
      refine ⟨hd, tl, by rw [← ht, hcs], ?_⟩
      exact List.mem_takeWhile_imp (by rw [hcs]; exact List.mem_cons_self _ _)

theorem isPrefixChars_iff {sub : List Char} :
    ∀ {s : List Char}, isPrefixChars sub s = true ↔ sub <+: s := by
  induction sub with
  | nil => intro s; simp [isPrefixChars]
  | cons a as ih =>
    intro s
    cases s with
    | nil => simp [isPrefixChars]
    | cons b bs =>
      unfold isPrefixChars
      rw [Bool.and_eq_true, List.cons_prefix_cons, ih]
      constructor
      · rintro ⟨h1, h2⟩; exact ⟨eq_of_beq h1, h2⟩
      · rintro ⟨h1, h2⟩; exact ⟨by rw [h1]; exact beq_self_eq_true _, h2⟩

theorem containsSeq_iff_infix {sub : List Char} :
    ∀ {s : List Char}, containsSeq sub s = true ↔ sub <:+: s := by
  intro s
  induction s with
  | nil =>
    unfold containsSeq
    rw [List.isEmpty_iff]
    constructor
    · intro h
      subst h
      exact List.infix_rfl
    · intro h
      exact List.sublist_nil.mp h.sublist
  | cons c rest ih =>
    unfold containsSeq
    rw [Bool.or_eq_true, isPrefixChars_iff, ih]
    constructor
    · rintro (h | h)
      · exact h.isInfix
      · obtain ⟨s, t, hst⟩ := h
        exact ⟨c :: s, t, by rw [← hst]; rfl⟩
    · intro h
      obtain ⟨s, t, hst⟩ := h
      cases s with
      | nil =>
        left
        exact ⟨t, by simpa using hst⟩
      | cons x s2 =>
        right
        refine ⟨s2, t, ?_⟩
        have := hst
        simp only [List.cons_append, List.cons.injEq] at this
        exact this.2

theorem lower_core :
    lowerList "linkedin.com/in/".data = "linkedin.com/in/".data := by decide

theorem lowerList_append (a b : List Char) :
    lowerList (a ++ b) = lowerList a ++ lowerList b := by
  unfold lowerList
  exact List.map_append asciiLower a b

theorem optAlt_some {a b : Option (List Char)} {m : List Char}
    (h : optAlt a b = some m) : a = some m ∨ b = some m := by
  cases a with
  | some x => left; simpa [optAlt] using h
  | none => right; simpa [optAlt] using h

theorem p1Core_struct {cs m : List Char} (h : p1Core cs = some m) :
    ∃ mid post, m = mid ++ post ∧
      lowerList mid = "linkedin.com/in/".data := by
  unfold p1Core at h
  split at h
  · exact absurd h (by simp)
  · next mc r1 hm =>
    split at h
    · exact absurd h (by simp)
    · next mh r2 ht =>
      have hlow := (matchLitCI_some hm).2
      rw [lower_core] at hlow
      split at h
      · exact ⟨mc, mh ++ ['/'], by simpa using h.symm, hlow⟩
      · exact ⟨mc, mh, by simpa using h.symm, hlow⟩

/-- Every successful `p1Core` run starts with a core-literal match. -/
theorem p1Core_corePos {cs m : List Char} (h : p1Core cs = some m) :
    ∃ m1 r1, matchLitCI "linkedin.com/in/".data cs = some (m1, r1) := by
  unfold p1Core at h
  split at h
  · exact absurd h (by simp)
  · next m1 r1 hm => exact ⟨m1, r1, hm⟩

theorem p1AfterProto_struct {cs m : List Char} (h : p1AfterProto cs = some m) :
    ∃ pre mid post, m = pre ++ (mid ++ post) ∧
      lowerList mid = "linkedin.com/in/".data := by
  have hcore : ∀ {cs0 : List Char}, p1Core cs0 = some m →
      ∃ pre mid post, m = pre ++ (mid ++ post) ∧
        lowerList mid = "linkedin.com/in/".data := by
    intro cs0 h0
    obtain ⟨mid, post, h1, h2⟩ := p1Core_struct h0
    exact ⟨[], mid, post, by simpa using h1, h2⟩
  unfold p1AfterProto at h
  rcases optAlt_some h with h1 | h1
  · split at h1
    · exact absurd h1 (by simp)
    · next mw r1 hww =>
      split at h1
      · exact absurd h1 (by simp)
      · next core hc =>
        have h2 : mw ++ core = m := by simpa using h1
        obtain ⟨mid, post, h3, h4⟩ := p1Core_struct hc
        refine ⟨mw, mid, post, ?_, h4⟩
        rw [← h2, h3]
  · exact hcore h1

/-- Every successful `p1AfterProto` run matches the core literal at some
suffix of its input. -/
theorem p1AfterProto_corePos {cs m : List Char} (h : p1AfterProto cs = some m) :
    ∃ cs2, cs2 <:+ cs ∧
      ∃ m1 r1, matchLitCI "linkedin.com/in/".data cs2 = some (m1, r1) := by
  unfold p1AfterProto at h
  rcases optAlt_some h with h1 | h1
  · split at h1
    · exact absurd h1 (by simp)
    · next mw r1 hww =>
      split at h1
      · exact absurd h1 (by simp)
      · next core hc =>
        refine ⟨r1, ?_, p1Core_corePos hc⟩
        obtain ⟨heq, -⟩ := matchLitCI_some hww
        exact ⟨mw, heq.symm⟩
  · exact ⟨cs, List.suffix_rfl, p1Core_corePos h1⟩

theorem p1Proto_struct {proto : String} {cs m : List Char}
    (h : p1Proto proto cs = some m) :
    ∃ pre mid post, m = pre ++ (mid ++ post) ∧
      lowerList mid = "linkedin.com/in/".data := by
  unfold p1Proto at h
  split at h
  · exact absurd h (by simp)
  · next mp r1 hp =>
    split at h
    · exact absurd h (by simp)
    · next rest hrest =>
      have h2 : mp ++ rest = m := by simpa using h
      obtain ⟨pre, mid, post, h3, h4⟩ := p1AfterProto_struct hrest
      refine ⟨mp ++ pre, mid, post, ?_, h4⟩
      rw [← h2, h3, List.append_assoc]

theorem p1Proto_corePos {proto : String} {cs m : List Char}
    (h : p1Proto proto cs = some m) :
    ∃ cs2, cs2 <:+ cs ∧
      ∃ m1 r1, matchLitCI "linkedin.com/in/".data cs2 = some (m1, r1) := by
  unfold p1Proto at h
  split at h
  · exact absurd h (by simp)
  · next mp r1 hp =>
    split at h
    · exact absurd h (by simp)
    · next rest hrest =>
      obtain ⟨cs2, hsuf, hc⟩ := p1AfterProto_corePos hrest
      obtain ⟨heq, -⟩ := matchLitCI_some hp
      exact ⟨cs2, hsuf.trans ⟨mp, heq.symm⟩, hc⟩

theorem p1At_struct {cs m : List Char} (h : p1At cs = some m) :
    ∃ pre mid post, m = pre ++ (mid ++ post) ∧
      lowerList mid = "linkedin.com/in/".data := by
  unfold p1At at h
  rcases optAlt_some h with h1 | h1
  · exact p1Proto_struct h1
  · rcases optAlt_some h1 with h2 | h2
    · exact p1Proto_struct h2
    · exact p1AfterProto_struct h2

theorem p1At_corePos {cs m : List Char} (h : p1At cs = some m) :
    ∃ cs2, cs2 <:+ cs ∧
      ∃ m1 r1, matchLitCI "linkedin.com/in/".data cs2 = some (m1, r1) := by
  unfold p1At at h
  rcases optAlt_some h with h1 | h1
  · exact p1Proto_corePos h1
  · rcases optAlt_some h1 with h2 | h2
    · exact p1Proto_corePos h2
    · exact p1AfterProto_corePos h2

theorem p3At_corePos {cs m : List Char} (h : p3At cs = some m) :
    ∃ m1 r1, matchLitCI "linkedin.com/in/".data cs = some (m1, r1) := by
  unfold p3At at h
  split at h
  · exact absurd h (by simp)
  · next m1 r1 hm =>
    split at h
    · exact absurd h (by simp)
    · exact ⟨m1, r1, hm⟩

theorem p2At_head {cs m : List Char} (h : p2At cs = some m) :
    ∃ c rest, m = c :: rest ∧ asciiLower c = 'l' := by
  unfold p2At at h
  split at h
  · exact absurd h (by simp)
  · next m1 r1 hm =>
    split at h
    · exact absurd h (by simp)
    · next hh rr ht =>
      have hlow := (matchLitCI_some hm).2
      rw [show lowerList "linkedin".data = "linkedin".data from by decide] at hlow
      cases m1 with
      | nil => exact absurd hlow (by decide)
      | cons c m2 =>
        have hc : asciiLower c = 'l' := by
          unfold lowerList at hlow
          simp only [List.map_cons] at hlow
          exact (List.cons.injEq .. ▸ hlow).1
        have h2 : (c :: m2) ++ (r1.takeWhile sepColonWs ++ hh) = m := by
          simpa using h
        exact ⟨c, m2 ++ (r1.takeWhile sepColonWs ++ hh), by rw [← h2]; rfl, hc⟩

theorem p3At_head {cs m : List Char} (h : p3At cs = some m) :
    ∃ c rest, m = c :: rest ∧ asciiLower c = 'l' := by
  unfold p3At at h
  split at h
  · exact absurd h (by simp)
  · next m1 r1 hm =>
    split at h
    · exact absurd h (by simp)
    · next hh rr ht =>
      have hlow := (matchLitCI_some hm).2
      rw [lower_core] at hlow
      cases m1 with
      | nil => exact absurd hlow (by decide)
      | cons c m2 =>
        have hc : asciiLower c = 'l' := by
          unfold lowerList at hlow
          simp only [List.map_cons] at hlow
          exact (List.cons.injEq .. ▸ hlow).1
        have h2 : (c :: m2) ++ hh = m := by simpa using h
        exact ⟨c, m2 ++ hh, by rw [← h2]; rfl, hc⟩

theorem firstMatch_some_suffix {f : List Char → Option (List Char)} :
    ∀ {cs m : List Char}, firstMatch f cs = some m →
    ∃ cs2, cs2 <:+ cs ∧ f cs2 = some m := by
  intro cs
  induction cs with
  | nil =>
    intro m h
    exact ⟨[], List.suffix_rfl, by simpa [firstMatch] using h⟩
  | cons c rest ih =>
    intro m h
    unfold firstMatch at h
    cases hf : f (c :: rest) with
    | some x =>
      rw [hf] at h
      have hx : x = m := by simpa [optAlt] using h
      exact ⟨c :: rest, List.suffix_rfl, by rw [hf, hx]⟩
    | none =>
      rw [hf] at h
      have h2 : firstMatch f rest = some m := by simpa [optAlt] using h
      obtain ⟨cs2, hsuf, hfc⟩ := ih h2
      exact ⟨cs2, hsuf.trans (List.suffix_cons c rest), hfc⟩

theorem containsLinkedInCI_of_mid (pre mid post : List Char) {m : List Char}
    (hm : m = pre ++ (mid ++ post))
    (hmid : lowerList mid = "linkedin.com/in/".data) :
    containsLinkedInCI ⟨m⟩ = true := by
  unfold containsLinkedInCI
  apply containsSeq_iff_infix.mpr
  show "linkedin.com/in/".data <:+: lowerList m
  rw [hm, lowerList_append, lowerList_append]
  refine ⟨lowerList pre, lowerList post, ?_⟩
  rw [hmid]
  exact (List.append_assoc _ _ _).symm ▸ rfl

theorem containsLinkedInCI_prefix (x : List Char) :
    containsLinkedInCI ⟨"https://linkedin.com/in/".data ++ x⟩ = true := by
  refine containsLinkedInCI_of_mid "https://".data "linkedin.com/in/".data x
    ?_ lower_core
  rw [← List.append_assoc]
  rw [show "https://".data ++ "linkedin.com/in/".data
    = "https://linkedin.com/in/".data from by decide]

theorem linkedInUrlFrom_contains (m : List Char)
    (h : (∃ pre mid post, m = pre ++ (mid ++ post) ∧
        lowerList mid = "linkedin.com/in/".data)
      ∨ isPrefixChars "http".data m = false) :
    containsLinkedInCI (linkedInUrlFrom m) = true := by
  unfold linkedInUrlFrom
  by_cases hp : isPrefixChars "http".data m = true
  · rw [if_pos hp]
    rcases h with ⟨pre, mid, post, h1, h2⟩ | h
    · exact containsLinkedInCI_of_mid pre mid post h1 h2
    · rw [h] at hp
      exact absurd hp (by simp)
  · rw [if_neg hp]
    by_cases hu : (lastSegment m).isEmpty
    · rw [if_pos hu]
      exact containsLinkedInCI_prefix _
    · rw [if_neg hu]
      exact containsLinkedInCI_prefix _

/-- C5 (counterexample to the claim as stated): when the rule-based value
fails `isValidLinkedIn`, the merge takes the model value with no
validation, so a model `linkedinUrl` of `https://google.com` becomes the
final record's `linkedinUrl` without containing `linkedin.com/in/`. -/
theorem claim_C5_counterexample :
    extractLinkedIn "hello world" = none ∧
    (mergeRecords
      ⟨"Name Not Found", none, none, .notSpecified,
        extractLinkedIn "hello world", [], []⟩
      ⟨none, none, none, none, some "https://google.com", [], []⟩).linkedinUrl
      = some "https://google.com" ∧
    jsIncludes "https://google.com" "linkedin.com/in/" = false := by
  refine ⟨by decide, by decide, by decide⟩

/-- C5 (amended): the rule-based extractor's `linkedinUrl` is always
`null` or contains `linkedin.com/in/` case-insensitively; the merged
record's `linkedinUrl` is `null`, contains `linkedin.com/in/`
(case-insensitively), or is the model's value taken unvalidated when the
rule-based value fails `isValidLinkedIn`. -/
theorem claim_C5_amended :
    (∀ text : String,
      (extractLinkedIn text).all containsLinkedInCI = true) ∧
    (∀ (rb : CandidateRecord) (ai : AIRecord),
      (mergeRecords rb ai).linkedinUrl = none ∨
      (∃ s, (mergeRecords rb ai).linkedinUrl = some s ∧
        containsLinkedInCI s = true) ∨
      (mergeRecords rb ai).linkedinUrl = ai.linkedinUrl) := by
  constructor
  · intro text
    unfold extractLinkedIn
    cases h1 : firstMatch p1At text.data with
    | some m =>
      show containsLinkedInCI (linkedInUrlFrom m) = true
      obtain ⟨cs2, -, hf⟩ := firstMatch_some_suffix h1
      obtain ⟨pre, mid, post, ha, hb⟩ := p1At_struct hf
      exact linkedInUrlFrom_contains m (Or.inl ⟨pre, mid, post, ha, hb⟩)
    | none =>
      cases h2 : firstMatch p2At text.data with
      | some m =>
        show containsLinkedInCI (linkedInUrlFrom m) = true
        obtain ⟨cs2, -, hf⟩ := firstMatch_some_suffix h2
        obtain ⟨c, rest, hm, hc⟩ := p2At_head hf
        refine linkedInUrlFrom_contains m (Or.inr ?_)
        rw [hm]
        exact not_http_of_lower_l hc rest
      | none =>
        cases h3 : firstMatch p3At text.data with
        | some m =>
          show containsLinkedInCI (linkedInUrlFrom m) = true
          obtain ⟨cs2, -, hf⟩ := firstMatch_some_suffix h3
          obtain ⟨c, rest, hm, hc⟩ := p3At_head hf
          refine linkedInUrlFrom_contains m (Or.inr ?_)
          rw [hm]
          exact not_http_of_lower_l hc rest
        | none => rfl
  · intro rb ai
    have hme : (mergeRecords rb ai).linkedinUrl
        = if isValidLinkedIn rb.linkedinUrl then rb.linkedinUrl
          else ai.linkedinUrl := rfl
    rw [hme]
    by_cases hv : isValidLinkedIn rb.linkedinUrl = true
    · rw [if_pos hv]
      cases hrb : rb.linkedinUrl with
      | none => rw [hrb] at hv; exact absurd hv (by simp [isValidLinkedIn])
      | some u =>
        right; left
        refine ⟨u, rfl, ?_⟩
        rw [hrb] at hv
        simp only [isValidLinkedIn] at hv
        by_cases hu : u = ""
        · rw [if_pos hu] at hv
          exact absurd hv (by simp)
        · rw [if_neg hu] at hv
          exact hv
    · rw [if_neg hv]
      right; right
      rfl

/-! ### Experience bounds (C1) -/

theorem spanYears_twelve (cy cm : Int) (sp : DateSpan) :
    ∃ k : ℤ, 12 * spanYears cy cm sp = (k : ℚ) := by
  obtain ⟨s, eo⟩ := sp
  have hcase : ∀ e : Int,
      (∃ k : ℤ, 12 * (if s ≠ 0 ∧ e ≠ 0 ∧ s ≤ e ∧ 1990 < s then
        ((e - s : Int) : ℚ) + (if e = cy then (cm : ℚ) / 12 else 0)
      else 0) = (k : ℚ)) := by
    intro e
    by_cases h : s ≠ 0 ∧ e ≠ 0 ∧ s ≤ e ∧ 1990 < s
    · rw [if_pos h]
      by_cases h2 : e = cy
      · refine ⟨12 * (e - s) + cm, ?_⟩
        rw [if_pos h2]
        push_cast
        ring
      · refine ⟨12 * (e - s), ?_⟩
        rw [if_neg h2]
        push_cast
        ring
    · rw [if_neg h]
      exact ⟨0, by norm_num⟩
  cases eo with
  | year y => simpa [spanYears] using hcase y
  | present => simpa [spanYears] using hcase cy

theorem total_twelve (cy cm : Int) (spans : List DateSpan) :
    ∃ k : ℤ, 12 * (spans.map (spanYears cy cm)).sum = (k : ℚ) := by
  induction spans with
  | nil => exact ⟨0, by simp⟩
  | cons a t ih =>
    obtain ⟨k1, hk1⟩ := spanYears_twelve cy cm a
    obtain ⟨k2, hk2⟩ := ih
    refine ⟨k1 + k2, ?_⟩
    rw [List.map_cons, List.sum_cons, mul_add, hk1, hk2]
    push_cast
    ring

theorem extractExperienceEnhanced_bounds {d : List ℚ} {spans : List DateSpan}
    {cy cm : Int} {q : ℚ}
    (h : extractExperienceEnhanced d spans cy cm = .years q) : 0 < q ∧ q < 50 := by
  unfold extractExperienceEnhanced at h
  cases hfind : d.find? (fun y => 0 < y && y < 50) with
  | some y =>
    rw [hfind] at h
    have hy := List.find?_some hfind
    simp only [Bool.and_eq_true, decide_eq_true_eq] at hy
    have hyq : y = q := by
      simpa using h
    rw [← hyq]
    exact hy
  | none =>
    rw [hfind] at h
    simp only at h
    by_cases hc : 0 < (spans.map (spanYears cy cm)).sum ∧
        (spans.map (spanYears cy cm)).sum < 50
    · rw [if_pos hc] at h
      set t := (spans.map (spanYears cy cm)).sum with ht
      have hq : ((jsRound (t * 10) : ℤ) : ℚ) / 10 = q := by
        simpa using h
      obtain ⟨k, hk⟩ := total_twelve cy cm spans
      rw [← ht] at hk
      have hkpos : 0 < k := by
        have : (0 : ℚ) < (k : ℚ) := by rw [← hk]; linarith [hc.1]
        exact_mod_cast this
      have hklt : k < 600 := by
        have : (k : ℚ) < 600 := by rw [← hk]; linarith [hc.2]
        exact_mod_cast this
      have htlow : (1 : ℚ) / 12 ≤ t := by
        have h1 : (1 : ℚ) ≤ (k : ℚ) := by exact_mod_cast hkpos
        linarith [hk ▸ h1]
      have hthigh : t ≤ 599 / 12 := by
        have hk599 : k ≤ 599 := by omega
        have h1 : (k : ℚ) ≤ 599 := by exact_mod_cast hk599
        linarith [hk ▸ h1]
      have hlow : 1 ≤ jsRound (t * 10) := by
        unfold jsRound
        exact Int.le_floor.mpr (by push_cast; linarith)
      have hhigh : jsRound (t * 10) < 500 := by
        unfold jsRound
        exact Int.floor_lt.mpr (by push_cast; linarith)
      constructor
      · rw [← hq]
        have : (1 : ℚ) ≤ ((jsRound (t * 10) : ℤ) : ℚ) := by exact_mod_cast hlow
        linarith
      · rw [← hq]
        have : ((jsRound (t * 10) : ℤ) : ℚ) < 500 := by exact_mod_cast hhigh
        linarith
    · rw [if_neg hc] at h
      simp at h

theorem extractExperienceEnhanced_cases (d : List ℚ) (spans : List DateSpan)
    (cy cm : Int) :
    extractExperienceEnhanced d spans cy cm = .notSpecified ∨
    ∃ q, extractExperienceEnhanced d spans cy cm = .years q := by
  unfold extractExperienceEnhanced
  cases hfind : d.find? (fun y => 0 < y && y < 50) with
  | some y => exact Or.inr ⟨y, rfl⟩
  | none =>
    by_cases hc : 0 < (spans.map (spanYears cy cm)).sum ∧
        (spans.map (spanYears cy cm)).sum < 50
    · exact Or.inr ⟨_, by rw [if_pos hc]⟩
    · exact Or.inl (by rw [if_neg hc])

theorem isValidExperience_spec {s : String}
    (h : isValidExperience (some s) = true) :
    ∃ q, jsParseFloatStripped s = some q ∧ 0 ≤ q ∧ q < 50 := by
  simp only [isValidExperience] at h
  by_cases hs : s = ""
  · rw [if_pos hs] at h
    exact absurd h (by simp)
  · rw [if_neg hs] at h
    cases hp : jsParseFloatStripped s with
    | none => rw [hp] at h; simp at h
    | some y =>
      rw [hp] at h
      simp only [Bool.and_eq_true, decide_eq_true_eq] at h
      exact ⟨y, rfl, h.1, h.2⟩

theorem parse_zero_years : jsParseFloatStripped "0 years" = some 0 := by
  have h1 : jsParseFloatStripped "0 years" = some ((digitsValNat ['0'] : ℕ) : ℚ) := rfl
  have h2 : digitsValNat ['0'] = 0 := by decide
  rw [h1, h2]
  norm_num

theorem isValidExperience_zero : isValidExperience (some "0 years") = true := by
  simp only [isValidExperience]
  rw [if_neg (by decide : ¬("0 years" = "")), parse_zero_years]
  norm_num

theorem mergedExperience_zero (e : ExperienceVal) :
    mergedExperience (some "0 years") e = .str "0 years" := by
  simp only [mergedExperience, isValidExperience_zero]
  simp

/-- C1 (counterexample to the claim as stated): the model-assisted
experience string `"0 years"` passes `isValidExperience`, which accepts
`years >= 0`, so the merged record's experience field is the non-sentinel
`"0 years"` whose parsed numeric value is `0` — not strictly greater
than `0`. -/
theorem claim_C1_counterexample :
    mergedExperience (some "0 years") (extractExperienceEnhanced [] [] 2025 10)
      = .str "0 years" ∧
    expParseNum (.str "0 years") = some 0 ∧
    ¬(0 < (0 : ℚ)) := by
  refine ⟨mergedExperience_zero _, ?_, by norm_num⟩
  show jsParseFloatStripped "0 years" = some 0
  exact parse_zero_years

/-- C1 (amended): when the rule-based extractor alone produces a
non-sentinel experience value, the value lies in the open interval
`(0, 50)`; when the merged record's experience field is non-sentinel, its
parsed numeric value lies in `[0, 50)` — the merge accepts a model value of
exactly `0`, so only the weaker lower bound holds there. -/
theorem claim_C1_amended :
    (∀ (d : List ℚ) (spans : List DateSpan) (cy cm : Int) (q : ℚ),
      extractExperienceEnhanced d spans cy cm = .years q → 0 < q ∧ q < 50) ∧
    (∀ (d : List ℚ) (spans : List DateSpan) (cy cm : Int)
      (aiExperience : Option String),
      mergedExperience aiExperience (extractExperienceEnhanced d spans cy cm)
        ≠ .notSpecified →
      ∃ q, expParseNum (mergedExperience aiExperience
          (extractExperienceEnhanced d spans cy cm)) = some q ∧
        0 ≤ q ∧ q < 50) := by
  constructor
  · intro d spans cy cm q h
    exact extractExperienceEnhanced_bounds h
  · intro d spans cy cm ai hne
    have hfall : extractExperienceEnhanced d spans cy cm ≠ .notSpecified →
        ∃ q, expParseNum (extractExperienceEnhanced d spans cy cm) = some q ∧
          0 ≤ q ∧ q < 50 := by
      intro hne2
      rcases extractExperienceEnhanced_cases d spans cy cm with h | ⟨q, h⟩
      · exact absurd h hne2
      · rw [h]
        obtain ⟨h1, h2⟩ := extractExperienceEnhanced_bounds h
        exact ⟨q, rfl, le_of_lt h1, h2⟩
    cases ai with
    | none =>
      simp only [mergedExperience] at hne ⊢
      exact hfall hne
    | some s =>
      simp only [mergedExperience] at hne ⊢
      by_cases hv : isValidExperience (some s) = true
      · rw [if_pos hv] at hne ⊢
        obtain ⟨q, hq, h0, h50⟩ := isValidExperience_spec hv
        exact ⟨q, by simpa [expParseNum] using hq, h0, h50⟩
      · rw [if_neg hv] at hne ⊢
        exact hfall hne

/-- Witness for C1 (amended) at concrete inputs: a direct match `5` gives
`"5 years"` in `(0, 50)`, and the merged field for model value `"0 years"`
parses inside `[0, 50)`. -/
theorem claim_C1_amended_witness :
    (0 < (5 : ℚ) ∧ (5 : ℚ) < 50) ∧
    (∃ q, expParseNum (mergedExperience (some "0 years")
        (extractExperienceEnhanced [] [] 2025 10)) = some q ∧
      0 ≤ q ∧ q < 50) :=
  ⟨claim_C1_amended.1 [5] [] 2025 10 5
    (by norm_num [extractExperienceEnhanced, List.find?]),
   claim_C1_amended.2 [] [] 2025 10 (some "0 years")
    (by rw [mergedExperience_zero]; simp)⟩

/-! ### Model-failure fallback (C2) -/

/-- C2: when the model-assisted step throws (any error) or returns no
parsed record, `extractCandidateInfoWithAI` returns exactly the rule-based
record built before the model call — the same record value, every field
unmodified. -/
theorem claim_C2_fallback (rb : CandidateRecord)
    (o : Except Unit (Option AIRecord))
    (h : o = .error () ∨ o = .ok none) :
    extractCandidateInfoWithAI rb o = rb := by
  rcases h with h | h <;> subst h <;> rfl

/-- Witness for C2 at a concrete record and a thrown model error. -/
theorem claim_C2_fallback_witness :
    extractCandidateInfoWithAI
      ⟨"Name Not Found", none, none, .notSpecified, none, [], []⟩ (.error ())
      = ⟨"Name Not Found", none, none, .notSpecified, none, [], []⟩ :=
  claim_C2_fallback _ _ (Or.inl rfl)

/-! ### Skill list invariants (C4) -/

theorem dedupAux_mem {x : String} :
    ∀ {l seen : List String}, x ∈ dedupAux seen l → seen.contains x = false := by
  intro l
  induction l with
  | nil => intro seen h; simp [dedupAux] at h
  | cons a rest ih =>
    intro seen h
    by_cases hc : seen.contains a
    · rw [show dedupAux seen (a :: rest)
          = if seen.contains a = true then dedupAux seen rest
            else a :: dedupAux (a :: seen) rest from rfl,
        if_pos hc] at h
      exact ih h
    · rw [show dedupAux seen (a :: rest)
          = if seen.contains a = true then dedupAux seen rest
            else a :: dedupAux (a :: seen) rest from rfl,
        if_neg hc] at h
      rcases List.mem_cons.mp h with h1 | h1
      · subst h1
        simpa using hc
      · have h2 := ih h1
        rw [List.contains_cons] at h2
        exact (Bool.or_eq_false_iff.mp h2).2

theorem dedupAux_nodup (l : List String) :
    ∀ seen, (dedupAux seen l).Nodup := by
  induction l with
  | nil => intro seen; simp [dedupAux]
  | cons a rest ih =>
    intro seen
    by_cases hc : seen.contains a
    · rw [show dedupAux seen (a :: rest)
          = if seen.contains a = true then dedupAux seen rest
            else a :: dedupAux (a :: seen) rest from rfl,
        if_pos hc]
      exact ih seen
    · rw [show dedupAux seen (a :: rest)
          = if seen.contains a = true then dedupAux seen rest
            else a :: dedupAux (a :: seen) rest from rfl,
        if_neg hc]
      rw [List.nodup_cons]
      refine ⟨?_, ih (a :: seen)⟩
      intro hmem
      have := dedupAux_mem hmem
      rw [List.contains_cons] at this
      simp at this

theorem jsSetDedup_nodup (l : List String) : (jsSetDedup l).Nodup :=
  dedupAux_nodup l []

theorem foldl_preserve {α β : Type} (P : β → Prop) (f : β → α → β)
    (hf : ∀ b a, P b → P (f b a)) :
    ∀ (l : List α) (b : β), P b → P (l.foldl f b) := by
  intro l
  induction l with
  | nil => intro b hb; simpa using hb
  | cons x xs ih => intro b hb; exact ih _ (hf b x hb)

theorem mapSet_keys_nodup {m : List (String × ℕ)} {k : String} {v : ℕ}
    (h : (m.map Prod.fst).Nodup) : ((mapSet m k v).map Prod.fst).Nodup := by
  unfold mapSet
  by_cases hany : m.any (fun e => e.1 == k) = true
  · rw [if_pos hany]
    have heq : (m.map fun e => if e.1 == k then (k, v) else e).map Prod.fst
        = m.map Prod.fst := by
      rw [List.map_map]
      apply List.map_congr_left
      intro e _
      by_cases he : (e.1 == k) = true
      · simp only [Function.comp_apply, if_pos he]
        exact (eq_of_beq he).symm
      · simp only [Function.comp_apply, if_neg he]
    rw [heq]
    exact h
  · rw [if_neg hany]
    rw [List.map_append]
    refine List.Nodup.append h (by simp) ?_
    intro x hx hy
    simp only [List.map_cons, List.map_nil, List.mem_singleton] at hy
    subst hy
    obtain ⟨e, he, hek⟩ := List.mem_map.mp hx
    rw [List.any_eq_true] at hany
    exact hany ⟨e, he, by rw [hek]; exact beq_self_eq_true _⟩

theorem idxFound_keys_nodup (ctxOf : String → List String) (p : Bool) :
    ((idxFound ctxOf p).map Prod.fst).Nodup := by
  unfold idxFound
  refine foldl_preserve
    (fun m : List (String × ℕ) => (m.map Prod.fst).Nodup) _ ?_ _ _ (by simp)
  intro m cat hm
  refine foldl_preserve
    (fun m : List (String × ℕ) => (m.map Prod.fst).Nodup) _ ?_ _ _ hm
  intro m2 skill hm2
  dsimp only
  by_cases hc : (ctxOf ⟨lowerList skill.data⟩).isEmpty
  · rw [if_pos hc]; exact hm2
  · rw [if_neg hc]; exact mapSet_keys_nodup hm2

/-- C4 (counterexample to the claim as stated): when the model call
returns no parsed record, the fallback record's `primarySkills` is the
sliced — but never deduplicated — model skill array of
`extractPrimarySkills`, so a model reply `["Java", "Java"]` puts a
duplicate into the produced record. -/
theorem claim_C4_counterexample :
    (extractCandidateInfoWithAI
      ⟨"Name Not Found", none, none, .notSpecified, none,
        extractPrimarySkills (some ["Java", "Java"]), []⟩
      (.ok none)).primarySkills = ["Java", "Java"] ∧
    ¬ (["Java", "Java"] : List String).Nodup := by
  exact ⟨rfl, by decide⟩

/-- C4 (amended): `mergeAndDedupSkills` output is always duplicate-free
and capped at its limit (8 in the merge); the model-sliced
primary/secondary lists are capped at 8 but not deduplicated; the local
vocabulary extractor (the index.js variant — the textExtractor variant
never returns normally, see C10) returns duplicate-free lists capped at
8 primary / 6 secondary. -/
theorem claim_C4_amended :
    (∀ (aiSkills ruleBasedSkills : List String) (limit : ℕ),
      (mergeAndDedupSkills aiSkills ruleBasedSkills limit).Nodup ∧
      (mergeAndDedupSkills aiSkills ruleBasedSkills limit).length ≤ limit) ∧
    (∀ r : Option (List String),
      (extractPrimarySkills r).length ≤ 8 ∧
      (extractSecondarySkills r).length ≤ 8) ∧
    (∀ (ctxOf : String → List String) (isPrimary : Bool),
      (extractSkillsWithAIIdx ctxOf isPrimary).Nodup ∧
      (extractSkillsWithAIIdx ctxOf isPrimary).length
        ≤ (if isPrimary then 8 else 6)) := by
  refine ⟨?_, ?_, ?_⟩
  · intro ai rb limit
    unfold mergeAndDedupSkills
    exact ⟨List.Nodup.sublist (List.take_sublist _ _) (jsSetDedup_nodup _),
      List.length_take_le _ _⟩
  · intro r
    cases r with
    | none => simp [extractPrimarySkills, extractSecondarySkills]
    | some skills =>
      exact ⟨List.length_take_le _ _, List.length_take_le _ _⟩
  · intro ctxOf isPrimary
    unfold extractSkillsWithAIIdx
    constructor
    · have hperm : (List.insertionSort (fun a b : String × ℕ => b.2 ≤ a.2)
          (idxFound ctxOf isPrimary)).map Prod.fst
          ~ (idxFound ctxOf isPrimary).map Prod.fst :=
        (List.perm_insertionSort _ _).map Prod.fst
      have hnodup := hperm.symm.nodup (idxFound_keys_nodup ctxOf isPrimary)
      exact List.Nodup.sublist (List.take_sublist _ _) hnodup
    · exact List.length_take_le _ _

/-! Lemmas for claim C6: a text whose `linkedin` occurrences are all
"bare" (no handle character after the optional `[:\s]*` run) defeats all
three regex patterns of `extractLinkedIn`. -/

theorem matchLitCI_prefixCI : ∀ {lit cs m r : List Char},
    matchLitCI lit cs = some (m, r) → isPrefixCharsCI lit cs = true := by
  intro lit
  induction lit with
  | nil => intro cs m r h; rfl
  | cons l ls ih =>
    intro cs m r h
    cases cs with
    | nil => exact absurd h (by rw [show matchLitCI (l :: ls) [] = none from rfl]; simp)
    | cons c cs2 =>
      rw [show matchLitCI (l :: ls) (c :: cs2)
        = if ciChar l c then (matchLitCI ls cs2).map (fun p => (c :: p.1, p.2))
          else none from rfl] at h
      by_cases hc : ciChar l c = true
      · rw [if_pos hc] at h
        cases hm : matchLitCI ls cs2 with
        | none => rw [hm] at h; exact absurd h (by simp)
        | some pr =>
          obtain ⟨m2, r2⟩ := pr
          show (ciChar l c && isPrefixCharsCI ls cs2) = true
          rw [hc, ih hm]
          rfl
      · rw [if_neg hc] at h
        exact absurd h (by simp)

theorem isPrefixCharsCI_append_left : ∀ (a b s : List Char),
    isPrefixCharsCI (a ++ b) s = true → isPrefixCharsCI a s = true := by
  intro a
  induction a with
  | nil => intro b s h; rfl
  | cons x a2 ih =>
    intro b s h
    cases s with
    | nil =>
      rw [show isPrefixCharsCI ((x :: a2) ++ b) [] = false from rfl] at h
      exact absurd h (by simp)
    | cons c s2 =>
      rw [show isPrefixCharsCI ((x :: a2) ++ b) (c :: s2)
        = (ciChar x c && isPrefixCharsCI (a2 ++ b) s2) from rfl] at h
      rw [show isPrefixCharsCI (x :: a2) (c :: s2)
        = (ciChar x c && isPrefixCharsCI a2 s2) from rfl]
      rw [Bool.and_eq_true] at h
      rw [Bool.and_eq_true]
      exact ⟨h.1, ih b s2 h.2⟩

theorem bareOnly_tail {c : Char} {rest : List Char}
    (h : linkedinBareOnly (c :: rest) = true) : linkedinBareOnly rest = true := by
  unfold linkedinBareOnly at h
  rw [Bool.and_eq_true] at h
  exact h.2

theorem bareOnly_drop : ∀ (t cs2 : List Char),
    linkedinBareOnly (t ++ cs2) = true → linkedinBareOnly cs2 = true := by
  intro t
  induction t with
  | nil => intro cs2 h; simpa using h
  | cons a t2 ih =>
    intro cs2 h
    exact ih cs2 (bareOnly_tail h)

theorem bareOnly_check {cs : List Char}
    (hb : linkedinBareOnly cs = true)
    (hpre : isPrefixCharsCI "linkedin".data cs = true) :
    ((cs.drop 8).dropWhile sepColonWs).isEmpty = true ∨
    p2Handle (((cs.drop 8).dropWhile sepColonWs).headD ' ') = false := by
  cases cs with
  | nil => exact absurd hpre (by decide)
  | cons c rest =>
    unfold linkedinBareOnly at hb
    rw [Bool.and_eq_true] at hb
    have h1 := hb.1
    rw [if_pos hpre] at h1
    rw [Bool.or_eq_true] at h1
    rcases h1 with h1 | h1
    · exact Or.inl h1
    · exact Or.inr (by simpa using h1)

theorem p2At_violates {cs m : List Char} (h : p2At cs = some m)
    (hb : linkedinBareOnly cs = true) : False := by
  unfold p2At at h
  split at h
  · exact absurd h (by simp)
  · next m1 r1 hm =>
    split at h
    · exact absurd h (by simp)
    · next hh rr ht =>
      have hpre := matchLitCI_prefixCI hm
      obtain ⟨hcs, -⟩ := matchLitCI_some hm
      have hlen : m1.length = 8 := by
        have h2 := matchLitCI_length hm
        rw [h2]
        decide
      have hr1 : r1 = cs.drop 8 := by
        rw [hcs, ← hlen, List.drop_left]
      rw [drop_takeWhile_eq_dropWhile] at ht
      obtain ⟨h1, -, hd, tl, hhd, hp⟩ := takeWhile1_some ht
      rcases bareOnly_check hb hpre with hemp | hph
      · rw [← hr1, h1, hhd] at hemp
        simp at hemp
      · rw [← hr1, h1, hhd] at hph
        rw [List.cons_append, List.headD_cons] at hph
        rw [hp] at hph
        exact absurd hph (by decide)

theorem core_violates {cs2 m1 r1 : List Char}
    (hm : matchLitCI "linkedin.com/in/".data cs2 = some (m1, r1))
    (hb : linkedinBareOnly cs2 = true) : False := by
  have hpre16 := matchLitCI_prefixCI hm
  have hpre8 : isPrefixCharsCI "linkedin".data cs2 = true := by
    apply isPrefixCharsCI_append_left "linkedin".data ".com/in/".data
    rw [show "linkedin".data ++ ".com/in/".data = "linkedin.com/in/".data
      from by decide]
    exact hpre16
  obtain ⟨hcs, hlow⟩ := matchLitCI_some hm
  rw [lower_core] at hlow
  have hlen : m1.length = 16 := by
    have h2 := matchLitCI_length hm
    rw [h2]
    decide
  have hm8 : lowerList (m1.drop 8) = ".com/in/".data := by
    have h3 : List.map asciiLower m1 = "linkedin.com/in/".data := hlow
    show List.map asciiLower (m1.drop 8) = ".com/in/".data
    rw [List.map_drop, h3]
    decide
  have hdot : ∃ xs, m1.drop 8 = '.' :: xs := by
    cases hxd : m1.drop 8 with
    | nil =>
      rw [hxd] at hm8
      exact absurd hm8 (by decide)
    | cons x xs =>
      rw [hxd] at hm8
      have h4 : asciiLower x :: List.map asciiLower xs = ".com/in/".data := hm8
      rw [show ".com/in/".data = '.' :: "com/in/".data from by decide] at h4
      injection h4 with h5 h6
      have h7 : asciiLower '.' = '.' := by decide
      have hc : ciChar '.' x = true := by
        show (asciiLower '.' == asciiLower x) = true
        rw [h7, h5]
        rfl
      have hx2 := ciChar_dot hc
      exact ⟨xs, by rw [hx2]⟩
  obtain ⟨xs, hxd⟩ := hdot
  have h8 : cs2.drop 8 = '.' :: (xs ++ r1) := by
    rw [hcs]
    rw [List.drop_append_of_le_length (by rw [hlen]; decide)]
    rw [hxd]
    rfl
  rcases bareOnly_check hb hpre8 with hemp | hph
  · rw [h8] at hemp
    rw [show ('.' :: (xs ++ r1)).dropWhile sepColonWs = '.' :: (xs ++ r1) from by
      rw [List.dropWhile_cons, if_neg (by decide)]] at hemp
    simp at hemp
  · rw [h8] at hph
    rw [show ('.' :: (xs ++ r1)).dropWhile sepColonWs = '.' :: (xs ++ r1) from by
      rw [List.dropWhile_cons, if_neg (by decide)]] at hph
    rw [List.headD_cons] at hph
    exact absurd hph (by decide)

/-- C6: if the text mentions the word `linkedin` (case-insensitively) but
every such occurrence is "bare" — after the occurrence and an optional run
of `[:\s]` the text ends or continues with a character outside the handle
class `[a-zA-Z0-9\-\/\.]` (so there is no LinkedIn URL and no handle
nearby) — then `extractLinkedIn` returns null: no pattern matches, and in
particular the bare word alone never produces a fabricated URL. -/
theorem claim_C6_bare_linkedin (text : String)
    (hword : containsSeq "linkedin".data (lowerList text.data) = true)
    (hbare : linkedinBareOnly text.data = true) :
    extractLinkedIn text = none := by
  have hsub : ∀ {cs2 : List Char}, cs2 <:+ text.data →
      linkedinBareOnly cs2 = true := by
    intro cs2 hsuf
    obtain ⟨t, ht⟩ := hsuf
    exact bareOnly_drop t cs2 (by rw [ht]; exact hbare)
  have h1 : firstMatch p1At text.data = none := by
    cases hx : firstMatch p1At text.data with
    | none => rfl
    | some m =>
      exfalso
      obtain ⟨cs1, hsuf1, hf⟩ := firstMatch_some_suffix hx
      obtain ⟨cs2, hsuf2, m1, r1, hcore⟩ := p1At_corePos hf
      exact core_violates hcore (hsub (hsuf2.trans hsuf1))
  have h2 : firstMatch p2At text.data = none := by
    cases hx : firstMatch p2At text.data with
    | none => rfl
    | some m =>
      exfalso
      obtain ⟨cs1, hsuf1, hf⟩ := firstMatch_some_suffix hx
      exact p2At_violates hf (hsub hsuf1)
  have h3 : firstMatch p3At text.data = none := by
    cases hx : firstMatch p3At text.data with
    | none => rfl
    | some m =>
      exfalso
      obtain ⟨cs1, hsuf1, hf⟩ := firstMatch_some_suffix hx
      obtain ⟨m1, r1, hcore⟩ := p3At_corePos hf
      exact core_violates hcore (hsub hsuf1)
  unfold extractLinkedIn
  rw [h1, h2, h3]
  rfl

theorem selectTopName_spec (cands : List NameCand) :
    (cands = [] → selectTopName cands = "Name Not Found") ∧
    (cands ≠ [] → ∃ c, c ∈ cands ∧ selectTopName cands = c.name ∧
      ∀ d ∈ cands, rCand c d) := by
  constructor
  · intro h
    subst h
    rfl
  · intro hne
    cases hs : List.insertionSort rCand cands with
    | nil =>
      exfalso
      have hp := List.perm_insertionSort rCand cands
      rw [hs] at hp
      exact hne hp.symm.eq_nil
    | cons c rest =>
      have hp := List.perm_insertionSort rCand cands
      rw [hs] at hp
      have hsort := List.sorted_insertionSort rCand cands
      rw [hs] at hsort
      refine ⟨c, ?_, ?_, ?_⟩
      · exact hp.mem_iff.mp (List.mem_cons_self c rest)
      · unfold selectTopName
        rw [hs]
      · intro d hd
        have hd2 : d ∈ c :: rest := hp.mem_iff.mpr hd
        rcases List.mem_cons.mp hd2 with h | h
        · subst h
          exact Or.inr ⟨rfl, le_refl _⟩
        · exact (List.sorted_cons.mp hsort).1 d h

/-- C8: both `extractNameWithAI` variants collect the candidates of their
strategies with confidence weights 0.9 / 0.8 / 0.7 (scaled here to
9 / 8 / 7) and positions, and return the formatted name of a candidate
that is maximal for "confidence descending, then position ascending"
(earlier occurrence wins a confidence tie); when no strategy produced any
candidate they return the sentinel `'Name Not Found'`. -/
theorem claim_C8_name_selector (text : String)
    (kwTx kwIdx : List (Option String)) :
    (nameCandsTx text kwTx = [] →
      extractNameWithAITx text kwTx = "Name Not Found") ∧
    (nameCandsTx text kwTx ≠ [] →
      ∃ c, c ∈ nameCandsTx text kwTx ∧
        extractNameWithAITx text kwTx = c.name ∧
        ∀ d ∈ nameCandsTx text kwTx,
          d.confidence < c.confidence ∨
          (c.confidence = d.confidence ∧ c.position ≤ d.position)) ∧
    (nameCandsIdx text kwIdx = [] →
      extractNameWithAIIdx text kwIdx = "Name Not Found") ∧
    (nameCandsIdx text kwIdx ≠ [] →
      ∃ c, c ∈ nameCandsIdx text kwIdx ∧
        extractNameWithAIIdx text kwIdx = c.name ∧
        ∀ d ∈ nameCandsIdx text kwIdx,
          d.confidence < c.confidence ∨
          (c.confidence = d.confidence ∧ c.position ≤ d.position)) := by
  have hTx := selectTopName_spec (nameCandsTx text kwTx)
  have hIdx := selectTopName_spec (nameCandsIdx text kwIdx)
  refine ⟨hTx.1, fun hne => ?_, hIdx.1, fun hne => ?_⟩
  · obtain ⟨c, hm, he, hall⟩ := hTx.2 hne
    exact ⟨c, hm, he, fun d hd => hall d hd⟩
  · obtain ⟨c, hm, he, hall⟩ := hIdx.2 hne
    exact ⟨c, hm, he, fun d hd => hall d hd⟩

theorem claim_C8_name_selector_witness :
    nameCandsTx "JOHN MICHAEL SMITH\nSoftware Engineer" [] ≠ [] ∧
    (∃ c, c ∈ nameCandsTx "JOHN MICHAEL SMITH\nSoftware Engineer" [] ∧
      extractNameWithAITx "JOHN MICHAEL SMITH\nSoftware Engineer" [] = c.name ∧
      ∀ d ∈ nameCandsTx "JOHN MICHAEL SMITH\nSoftware Engineer" [],
        d.confidence < c.confidence ∨
        (c.confidence = d.confidence ∧ c.position ≤ d.position)) ∧
    nameCandsIdx "" [] = [] ∧
    extractNameWithAIIdx "" [] = "Name Not Found" :=
  ⟨by decide,
   (claim_C8_name_selector "JOHN MICHAEL SMITH\nSoftware Engineer" [] []).2.1
     (by decide),
   by decide,
   (claim_C8_name_selector "" [] []).2.2.1 (by decide)⟩

/-- C3 (counterexample): with the input text, the regex scan results and
the current date all fixed, two runs of the rule-based record construction
can still produce different candidate records, because the skills fields
are filled by language-model calls whose replies can differ between runs
— the rule-based record is not a deterministic function of the input
text alone. -/
theorem claim_C3_counterexample :
    buildRuleBasedInfo "" ⟨"", none, none, [], []⟩ 2026 1
        ⟨some ["Java"], none⟩ ≠
      buildRuleBasedInfo "" ⟨"", none, none, [], []⟩ 2026 1
        ⟨some ["Python"], none⟩ := by
  intro h
  have h2 : extractPrimarySkills (some ["Java"])
      = extractPrimarySkills (some ["Python"]) :=
    congrArg CandidateRecord.primarySkills h
  exact absurd h2 (by decide)

/-- C3 (amended): the name, email, phone, experience and linkedinUrl
fields of the rule-based record are deterministic functions of the input
text, its regex scan results and the current date — two runs with any
model replies agree on all five — and the model replies are the only
nondeterministic input: fixing them too makes the whole record identical
across runs. -/
theorem claim_C3_amended (text : String) (scan : TextScan)
    (currentYear currentMonth : Int) (r1 r2 : ModelReplies) :
    (buildRuleBasedInfo text scan currentYear currentMonth r1).name
      = (buildRuleBasedInfo text scan currentYear currentMonth r2).name ∧
    (buildRuleBasedInfo text scan currentYear currentMonth r1).email
      = (buildRuleBasedInfo text scan currentYear currentMonth r2).email ∧
    (buildRuleBasedInfo text scan currentYear currentMonth r1).phone
      = (buildRuleBasedInfo text scan currentYear currentMonth r2).phone ∧
    (buildRuleBasedInfo text scan currentYear currentMonth r1).experience
      = (buildRuleBasedInfo text scan currentYear currentMonth r2).experience ∧
    (buildRuleBasedInfo text scan currentYear currentMonth r1).linkedinUrl
      = (buildRuleBasedInfo text scan currentYear currentMonth r2).linkedinUrl ∧
    (r1 = r2 →
      buildRuleBasedInfo text scan currentYear currentMonth r1
        = buildRuleBasedInfo text scan currentYear currentMonth r2) :=
  ⟨rfl, rfl, rfl, rfl, rfl, fun h => by rw [h]⟩

theorem claim_C3_amended_witness :
    buildRuleBasedInfo "x" ⟨"", none, none, [], []⟩ 2026 1
        ⟨some ["Java"], none⟩
      = buildRuleBasedInfo "x" ⟨"", none, none, [], []⟩ 2026 1
        ⟨some ["Java"], none⟩ :=
  (claim_C3_amended "x" ⟨"", none, none, [], []⟩ 2026 1
    ⟨some ["Java"], none⟩ ⟨some ["Java"], none⟩).2.2.2.2.2 rfl

theorem claim_C6_bare_linkedin_witness :
    containsSeq "linkedin".data (lowerList "find me on linkedin".data) = true ∧
    linkedinBareOnly "find me on linkedin".data = true ∧
    extractLinkedIn "find me on linkedin" = none :=
  ⟨by decide, by decide,
    claim_C6_bare_linkedin "find me on linkedin" (by decide) (by decide)⟩

end EmailProcess
